import Mathlib

/-!
Verification of the invoice text interpretation engine of `src/app.py`
(functions `detect_currency`, `normalize_vendor`, `detect_vendor`,
`extract_total_amount` with its nested `parse_number`, and the savings
computation inside `preview`).

Modelling conventions:
* Python strings are modelled as `List Char`; Python `float` arithmetic is
  modelled by exact rationals `ℚ` (the spec values involved are exactly
  representable, and `round(x, 2)` is modelled as round-half-even on `ℚ`).
* Python string primitives (`strip`, `lower`, `title`, `splitlines`,
  `replace`, `rfind`, `float(...)`, `re` searches for the concrete regular
  expressions appearing in the source) are embedded as executable Lean
  functions below, following CPython semantics for the character ranges that
  occur in invoice text (ASCII plus Latin-1 letters; the Unicode whitespace
  set is embedded in full).  `float(...)` is modelled on its decimal
  grammar (sign, digits, one dot, optional exponent); `inf`/`nan` and
  digit-group underscores are outside the rational model.
* Recursive scanners take an explicit fuel argument (always instantiated
  with a sufficient bound) so that every definition reduces in the kernel.
-/

set_option maxRecDepth 10000

namespace SpendGuard

/-- Unicode whitespace, exactly the set for which CPython `str.isspace`
returns `True` (used by `str.strip()` and by `\s` in `re` patterns): tab,
LF, VT, FF, CR (9-13), FS, GS, RS, US, space (28-32), NEL 133, NBSP 160,
Ogham 5760, the U+2000-U+200A range, LS 8232, PS 8233, NNBSP 8239, MMSP
8287 and ideographic space 12288; stated on code points. -/
def pyIsSpace (c : Char) : Bool :=
  (9 ≤ c.toNat && c.toNat ≤ 13) || (28 ≤ c.toNat && c.toNat ≤ 32) ||
  c.toNat = 133 || c.toNat = 160 || c.toNat = 5760 ||
  (8192 ≤ c.toNat && c.toNat ≤ 8202) || c.toNat = 8232 || c.toNat = 8233 ||
  c.toNat = 8239 || c.toNat = 8287 || c.toNat = 12288

/-- Line boundaries recognised by CPython `str.splitlines`: LF, VT, FF, CR
(10-13), FS, GS, RS (28-30), NEL 133, LS 8232 and PS 8233. -/
def isLineBreak (c : Char) : Bool :=
  (10 ≤ c.toNat && c.toNat ≤ 13) || (28 ≤ c.toNat && c.toNat ≤ 30) ||
  c.toNat = 133 || c.toNat = 8232 || c.toNat = 8233

/-- ASCII decimal digit (CPython `str.isdigit` restricted to the characters
a billing document produces). -/
def isAsciiDigit (c : Char) : Bool :=
  48 ≤ c.toNat && c.toNat ≤ 57

/-- Letters in the ASCII and Latin-1 range (CPython `str.isalpha` on the
characters relevant here). -/
def pyIsAlpha (c : Char) : Bool :=
  (65 ≤ c.toNat && c.toNat ≤ 90) || (97 ≤ c.toNat && c.toNat ≤ 122) ||
  c.toNat = 170 || c.toNat = 181 || c.toNat = 186 ||
  (192 ≤ c.toNat && c.toNat ≤ 214) || (216 ≤ c.toNat && c.toNat ≤ 246) ||
  (248 ≤ c.toNat && c.toNat ≤ 255)

/-- CPython `str.lower` on one character (ASCII and Latin-1 letters;
other characters are unchanged). -/
def pyLowerChar (c : Char) : Char :=
  if 65 ≤ c.toNat ∧ c.toNat ≤ 90 then Char.ofNat (c.toNat + 32)
  else if 192 ≤ c.toNat ∧ c.toNat ≤ 222 ∧ c.toNat ≠ 215 then Char.ofNat (c.toNat + 32)
  else c

/-- CPython `str.upper` on one character (same ranges as `pyLowerChar`). -/
def pyUpperChar (c : Char) : Char :=
  if 97 ≤ c.toNat ∧ c.toNat ≤ 122 then Char.ofNat (c.toNat - 32)
  else if 224 ≤ c.toNat ∧ c.toNat ≤ 254 ∧ c.toNat ≠ 247 then Char.ofNat (c.toNat - 32)
  else c

/-- CPython `str.lower` on a string. -/
def pyLower (s : List Char) : List Char := s.map pyLowerChar

/-- `p` is a prefix of `s` (Boolean, by direct recursion). -/
def pfx : List Char → List Char → Bool
  | [], _ => true
  | _ :: _, [] => false
  | a :: as, b :: bs => a = b && pfx as bs

/-- `p` is a suffix of `s`. -/
def sfx (p s : List Char) : Bool := pfx p.reverse s.reverse

/-- `p` occurs as a contiguous substring of `s` (Python `p in s` for
nonempty `p`). -/
def occursIn (p : List Char) : List Char → Bool
  | [] => pfx p []
  | c :: t => pfx p (c :: t) || occursIn p t

/-- CPython `str.strip()`: leading whitespace removed. -/
def stripStart (s : List Char) : List Char := s.dropWhile pyIsSpace

/-- CPython `str.strip()`: trailing whitespace removed. -/
def stripEnd (s : List Char) : List Char :=
  (s.reverse.dropWhile pyIsSpace).reverse

/-- CPython `str.strip()` with no arguments. -/
def pstrip (s : List Char) : List Char := stripEnd (stripStart s)

/-- CPython `str.title` (tracking whether the previous character was
alphabetic). -/
def pyTitleGo : Bool → List Char → List Char
  | _, [] => []
  | prev, c :: t =>
    (if pyIsAlpha c then (if prev then pyLowerChar c else pyUpperChar c) else c) ::
      pyTitleGo (pyIsAlpha c) t

/-- CPython `str.title`. -/
def pyTitle (s : List Char) : List Char := pyTitleGo false s

/-- CPython `str.splitlines` (fuel-driven; `fuel ≥ length` suffices). -/
def pySplitlinesF : Nat → List Char → List (List Char)
  | _, [] => []
  | 0, s => [s]
  | n + 1, s =>
    let line := s.takeWhile (fun c => !isLineBreak c)
    match s.drop line.length with
    | [] => [line]
    | '\r' :: '\n' :: rest => line :: pySplitlinesF n rest
    | _ :: rest => line :: pySplitlinesF n rest

/-- CPython `str.splitlines`. -/
def pySplitlines (s : List Char) : List (List Char) :=
  pySplitlinesF s.length s

/-- CPython `str.rfind` for a single character: index of the last
occurrence, `-1` when absent. -/
def pyRfind (c : Char) : List Char → Int
  | [] => -1
  | a :: t =>
    let r := pyRfind c t
    if 0 ≤ r then r + 1 else if a = c then 0 else -1

/-- Numeric value of a list of ASCII digits (most significant first). -/
def natDigits (l : List Char) : Nat :=
  l.foldl (fun a c => 10 * a + (c.toNat - 48)) 0

/-- Exponent part of the CPython `float` grammar: `(e|E)[+-]?digits`,
consuming the whole rest of the string.  Returns the signed exponent. -/
def pyFloatExp (r : List Char) : Option Int :=
  match r with
  | [] => some 0
  | e :: t =>
    if e = 'e' ∨ e = 'E' then
      let (esign, t1) : Int × List Char :=
        match t with
        | '+' :: u => (1, u)
        | '-' :: u => (-1, u)
        | _ => (1, t)
      let ed := t1.takeWhile isAsciiDigit
      if ed = [] ∨ t1.drop ed.length ≠ [] then none
      else some (esign * (natDigits ed : Int))
    else none

/-- Sign parsing of the CPython `float` grammar: a leading `+` or `-` is
consumed, anything else leaves the string unchanged. -/
def pyFloatSign : List Char → ℤ × List Char
  | [] => (1, [])
  | c :: t => if c = '+' then (1, t) else if c = '-' then (-1, t) else (1, c :: t)

/-- Mantissa parsing of the CPython `float` grammar: integer digits, then
optionally a dot and fractional digits.  Returns (integer digits,
fractional digits, rest). -/
def pyFloatMant (s1 : List Char) : List Char × List Char × List Char :=
  let d1 := s1.takeWhile isAsciiDigit
  match s1.drop d1.length with
  | c :: t =>
    if c = '.' then (d1, t.takeWhile isAsciiDigit, t.drop (t.takeWhile isAsciiDigit).length)
    else (d1, [], c :: t)
  | [] => (d1, [], [])

/-- CPython `float(s)` on the decimal grammar: optional surrounding
whitespace, optional sign, digits with at most one dot (at least one digit),
optional exponent.  `none` models `ValueError`. -/
def pyFloat (s0 : List Char) : Option ℚ :=
  let (sign, s1) := pyFloatSign (pstrip s0)
  let (d1, d2, r2) := pyFloatMant s1
  if d1 = [] ∧ d2 = [] then none
  else
    match pyFloatExp r2 with
    | some ex =>
      -- the exact value sign * (d1.d2) * 10^ex, written as a single fraction
      some (mkRat (sign * ((natDigits d1 * 10 ^ d2.length + natDigits d2 : ℕ) : ℤ) *
        10 ^ ex.toNat) (10 ^ (d2.length + (-ex).toNat)))
    | none => none

/-- `parse_number` nested in `extract_total_amount` (src/app.py:229-241):
strip, remove regular spaces, resolve `.`/`,` by the position of their last
occurrences, then `float(...)` with `0.0` on failure. -/
def parse_number (s : List Char) : ℚ :=
  let s1 := pstrip s
  let s2 := s1.filter (fun c => c ≠ ' ')
  let s3 :=
    if occursIn [','] s2 = true ∧ occursIn ['.'] s2 = true then
      if pyRfind ',' s2 > pyRfind '.' s2 then
        (s2.filter (fun c => c ≠ '.')).map (fun c => if c = ',' then '.' else c)
      else
        s2.filter (fun c => c ≠ ',')
    else
      s2.map (fun c => if c = ',' then '.' else c)
  match pyFloat s3 with
  | some v => v
  | none => 0

/-- CPython `str.replace(p, q)`: replace all leftmost non-overlapping
occurrences of `p` by `q` (fuel-driven; `fuel ≥ length` suffices). -/
def replF (p q : List Char) : Nat → List Char → List Char
  | _, [] => []
  | 0, s => s
  | n + 1, c :: t =>
    if 0 < p.length ∧ pfx p (c :: t) = true then q ++ replF p q n ((c :: t).drop p.length)
    else c :: replF p q n t

/-- CPython `str.replace(p, q)`. -/
def repl (p q s : List Char) : List Char := replF p q s.length s

/-- `normalize_vendor` (src/app.py:155-162): `(v or "UNKNOWN").strip()`
followed by the four fixed `str.replace` casing corrections, in source
order. -/
def normalize_vendor (v : List Char) : List Char :=
  let v1 := if v = [] then "UNKNOWN".toList else v
  let v2 := pstrip v1
  repl "Google workspace".toList "Google Workspace".toList
    (repl "Hubspot".toList "HubSpot".toList
      (repl "Aws".toList "AWS".toList
        (repl "Ia".toList "IA".toList v2)))

/-- `detect_currency` (src/app.py:146-153): literal symbol presence only,
in the order `€`, `$`, `£`, else the sentinel. -/
def detect_currency (text : List Char) : List Char :=
  if occursIn ['€'] text = true then "EUR".toList
  else if occursIn ['$'] text = true then "USD".toList
  else if occursIn ['£'] text = true then "GBP".toList
  else "UNKNOWN".toList

/-- The ordered brand keyword list of `detect_vendor` (src/app.py:167-187). -/
def brands : List (List Char × List Char) :=
  [("google workspace".toList, "Google Workspace".toList),
   ("google".toList, "Google".toList),
   ("notion".toList, "Notion".toList),
   ("microsoft 365".toList, "Microsoft 365".toList),
   ("office 365".toList, "Microsoft 365".toList),
   ("microsoft".toList, "Microsoft".toList),
   ("azure".toList, "Microsoft Azure".toList),
   ("adobe".toList, "Adobe".toList),
   ("slack".toList, "Slack".toList),
   ("stripe".toList, "Stripe".toList),
   ("amazon web services".toList, "AWS".toList),
   ("aws".toList, "AWS".toList),
   ("ovh".toList, "OVHcloud".toList),
   ("github".toList, "GitHub".toList),
   ("canva".toList, "Canva".toList),
   ("dropbox".toList, "Dropbox".toList),
   ("zoom".toList, "Zoom".toList),
   ("hubspot".toList, "HubSpot".toList),
   ("shopify".toList, "Shopify".toList),
   ("openai".toList, "OpenAI".toList)]

/-- Stage 1 of `detect_vendor`: first brand whose keyword occurs in the
lower-cased text. -/
def vendorStage1 (low : List Char) : Option (List Char) :=
  brands.findSome? (fun kn => if occursIn kn.1 low = true then some kn.2 else none)

/-- Case-insensitive literal match (the pattern is given lower-cased);
returns the rest of the input after the literal. -/
def cmatch : List Char → List Char → Option (List Char)
  | [], s => some s
  | _ :: _, [] => none
  | p :: ps, c :: cs => if pyLowerChar c = p then cmatch ps cs else none

/-- The character class `[eé]` under `re.IGNORECASE`. -/
def eClass : List Char → Option (List Char)
  | [] => none
  | c :: t => if pyLowerChar c = 'e' ∨ pyLowerChar c = 'é' then some t else none

/-- Group 1 of the first vendor pattern
`(factur[eé]\s*par|fournisseur|vendor|seller|issued by)` at the start of
`s` (alternatives are mutually exclusive at any position, so first-match
equals regex alternation). -/
def matchAlt1 (s : List Char) : Option (List Char) :=
  (match cmatch "factur".toList s with
   | some r1 =>
     match eClass r1 with
     | some r2 => cmatch "par".toList (r2.drop (r2.takeWhile pyIsSpace).length)
     | none => none
   | none => none) <|>
  cmatch "fournisseur".toList s <|>
  cmatch "vendor".toList s <|>
  cmatch "seller".toList s <|>
  cmatch "issued by".toList s

/-- Group 1 of the second vendor pattern `(soci[eé]t[eé]|company)` at the
start of `s`. -/
def matchAlt2 (s : List Char) : Option (List Char) :=
  ((cmatch "soci".toList s).bind fun r1 =>
    (eClass r1).bind fun r2 =>
      (cmatch "t".toList r2).bind fun r3 => eClass r3) <|>
  cmatch "company".toList s

/-- The capture of `\s*(.+)` with `re` backtracking: the greedy `\s*` is
given back one character at a time until `.` (which excludes `\n`) can
match at least one character. -/
def captureDot (u : List Char) : Option (List Char) :=
  let w := u.takeWhile pyIsSpace
  match u.drop w.length with
  | c :: r => some ((c :: r).takeWhile (fun x => x ≠ '\n'))
  | [] =>
    match w.reverse.dropWhile (fun x => x = '\n') with
    | c :: _ => some [c]
    | [] => none

/-- The tail `\s*[:\-]\s*(.+)` of both vendor patterns, returning the
group-2 capture. -/
def afterLabel (rest : List Char) : Option (List Char) :=
  match rest.drop (rest.takeWhile pyIsSpace).length with
  | c :: r => if c = ':' ∨ c = '-' then captureDot r else none
  | [] => none

/-- Leftmost `re.search`: try the position matcher at every position, in
order. -/
def searchCap (f : List Char → Option (List Char)) : List Char → Option (List Char)
  | [] => none
  | c :: t =>
    match f (c :: t) with
    | some cap => some cap
    | none => searchCap f t

/-- The candidate post-processing of Stage 2 of `detect_vendor`:
`.strip()`, `.split("\n")[0]`, `.strip()`, then the 3..80 length gate. -/
def gateLen (cap : List Char) : Option (List Char) :=
  let cand := pstrip ((pstrip cap).takeWhile (fun x => x ≠ '\n'))
  if 3 ≤ cand.length ∧ cand.length ≤ 80 then some cand else none

/-- Stage 2 of `detect_vendor` (src/app.py:194-204): the two labelled-field
patterns tried in order, each via leftmost search and the length gate.
Returns the accepted candidate before title-casing. -/
def vendorStage2 (raw : List Char) : Option (List Char) :=
  ((searchCap (fun s => (matchAlt1 s).bind afterLabel) raw).bind gateLen) <|>
  ((searchCap (fun s => (matchAlt2 s).bind afterLabel) raw).bind gateLen)

/-- The noise keywords of Stage 3 of `detect_vendor` (src/app.py:208). -/
def badWords : List (List Char) :=
  ["facture".toList, "invoice".toList, "date".toList, "total".toList,
   "tva".toList, "vat".toList, "adresse".toList, "address".toList]

/-- Stage 3 of `detect_vendor` (src/app.py:206-217): first of the first 12
non-blank stripped lines that is at least 4 characters, noise-free, with at
least 6 letters, at most 2 digits and length at most 60. -/
def vendorStage3 (text : List Char) : Option (List Char) :=
  let lines := ((pySplitlines text).map pstrip).filter (fun l => l ≠ [])
  (lines.take 12).findSome? (fun l =>
    let ll := pyLower l
    if l.length < 4 ∨ badWords.any (fun b => occursIn b ll) then none
    else if 6 ≤ (l.filter pyIsAlpha).length ∧ (l.filter isAsciiDigit).length ≤ 2 ∧
        l.length ≤ 60 then some l
    else none)

/-- `detect_vendor` (src/app.py:164-218). -/
def detect_vendor (raw : List Char) : List Char :=
  let text := pstrip raw
  let low := pyLower text
  match vendorStage1 low with
  | some name => name
  | none =>
    match vendorStage2 raw with
    | some cand => normalize_vendor (pyTitle cand)
    | none =>
      match vendorStage3 text with
      | some l => normalize_vendor l
      | none => "UNKNOWN".toList

/-- One `(?:[ .][0-9]{3})` repetition of the grouped-number pattern. -/
def grpOpt (s : List Char) : Option (List Char × List Char) :=
  match s with
  | c :: d1 :: d2 :: d3 :: r =>
    if (c = ' ' ∨ c = '.') ∧ isAsciiDigit d1 = true ∧ isAsciiDigit d2 = true ∧
        isAsciiDigit d3 = true then
      some ([c, d1, d2, d3], r)
    else none
  | _ => none

/-- The `(?:[.,][0-9]{2})` fractional part of the grouped-number pattern. -/
def fracOpt (s : List Char) : Option (List Char × List Char) :=
  match s with
  | c :: d1 :: d2 :: r =>
    if (c = '.' ∨ c = ',') ∧ isAsciiDigit d1 = true ∧ isAsciiDigit d2 = true then
      some ([c, d1, d2], r)
    else none
  | _ => none

/-- All splits of `(?:[ .][0-9]{3})*` in greedy backtracking order (most
repetitions first); fuel-driven, `fuel ≥ length` suffices. -/
def grpCands : Nat → List Char → List (List Char × List Char)
  | 0, s => [([], s)]
  | n + 1, s =>
    match grpOpt s with
    | some (g, r) => ((grpCands n r).map fun mr => (g ++ mr.1, mr.2)) ++ [([], s)]
    | none => [([], s)]

/-- Take exactly `n` leading digits if available. -/
def dTake (n : Nat) (s : List Char) : Option (List Char × List Char) :=
  if (s.take n).length = n ∧ (s.take n).all isAsciiDigit = true then
    some (s.take n, s.drop n)
  else none

/-- All splits of the leading `[0-9]{1,3}` in greedy backtracking order. -/
def dCands (s : List Char) : List (List Char × List Char) :=
  [dTake 3 s, dTake 2 s, dTake 1 s].filterMap id

/-- All matches of `[0-9]{1,3}(?:[ .][0-9]{3})*(?:[.,][0-9]{2})?` starting
at the head of `s`, in `re` backtracking preference order.  Each entry is
(matched text, whether the fractional part was taken, rest). -/
def numCands (fuel : Nat) (s : List Char) : List (List Char × Bool × List Char) :=
  (dCands s).flatMap fun dr =>
    (grpCands fuel dr.2).flatMap fun gr =>
      (match fracOpt gr.2 with
       | some (f, r3) => [(dr.1 ++ gr.1 ++ f, true, r3)]
       | none => []) ++ [(dr.1 ++ gr.1, false, gr.2)]

/-- `re.search` for the Stage-1 number pattern of `extract_total_amount`:
leftmost position, greedy match (nothing follows the group, so the first
candidate wins). -/
def searchNum : List Char → Option (List Char)
  | [] => none
  | c :: t =>
    match numCands (c :: t).length (c :: t) with
    | m :: _ => some m.1
    | [] => searchNum t

/-- The currency alternatives `(€|eur|usd|\$|gbp|£)` in declared order
(searched in lower-cased text). -/
def curAlts : List (List Char) :=
  ["€".toList, "eur".toList, "usd".toList, "$".toList, "gbp".toList, "£".toList]

/-- The tail `\s*(€|eur|usd|\$|gbp|£)` of the Stage-2 pattern; returns the
rest after the currency token. -/
def tryCur (r : List Char) : Option (List Char) :=
  let r1 := r.drop (r.takeWhile pyIsSpace).length
  curAlts.findSome? fun a => if pfx a r1 = true then some (r1.drop a.length) else none

/-- The Stage-2 pattern (number, optional whitespace, currency token) at
the start of `s`: first number candidate in backtracking order whose tail
accepts a currency token.  Returns (group 1, rest after the whole match). -/
def matchAt2 (s : List Char) : Option (List Char × List Char) :=
  (numCands s.length s).findSome? fun mfr =>
    (tryCur mfr.2.2).map fun r2 => (mfr.1, r2)

/-- `re.findall` for the Stage-2 pattern: leftmost matches, scanning
resumes after each match. -/
def findall2F : Nat → List Char → List (List Char)
  | 0, _ => []
  | _, [] => []
  | n + 1, c :: t =>
    match matchAt2 (c :: t) with
    | some (m, r2) => m :: findall2F n r2
    | none => findall2F n t

/-- The Stage-3 pattern (number with mandatory 2-digit fraction) at the
start of `s`: first candidate in backtracking order whose fractional part
was taken.  Returns (match, rest). -/
def matchAt3 (s : List Char) : Option (List Char × List Char) :=
  (numCands s.length s).findSome? fun mfr =>
    if mfr.2.1 = true then some (mfr.1, mfr.2.2) else none

/-- `re.findall` for the Stage-3 pattern. -/
def findall3F : Nat → List Char → List (List Char)
  | 0, _ => []
  | _, [] => []
  | n + 1, c :: t =>
    match matchAt3 (c :: t) with
    | some (m, r2) => m :: findall3F n r2
    | none => findall3F n t

/-- The Stage-1 priority keywords of `extract_total_amount`
(src/app.py:224-227), in declared order. -/
def priorityKeys : List (List Char) :=
  ["total ttc".toList, "montant ttc".toList, "total à payer".toList,
   "net à payer".toList, "amount due".toList, "total due".toList,
   "grand total".toList, "total".toList]

/-- Stage 1 of `extract_total_amount`, one line: if the lower-cased line
contains a priority keyword and its first grouped-decimal number parses to
a strictly positive value, that value; otherwise nothing. -/
def lineVal (l : List Char) : Option ℚ :=
  if priorityKeys.any (fun k => occursIn k (pyLower l)) then
    match searchNum l with
    | some g => let v := parse_number g; if 0 < v then some v else none
    | none => none
  else none

/-- The non-breaking-space replacement at the top of
`extract_total_amount` (src/app.py:221). -/
def nbspToSpace (raw : List Char) : List Char :=
  raw.map fun c => if c = '\u00A0' then ' ' else c

/-- The preprocessed non-blank stripped lines of `extract_total_amount`
(after the non-breaking-space replacement). -/
def procLines (raw : List Char) : List (List Char) :=
  ((pySplitlines (nbspToSpace raw)).map pstrip).filter (fun l => l ≠ [])

/-- Stage 3 of `extract_total_amount` together with the final default:
last match of the mandatory-fraction pattern, its value if positive else
`0.0`, and `0.0` when there is no match. -/
def stage3Val (low : List Char) : ℚ :=
  match (findall3F low.length low).getLast? with
  | some g => let v := parse_number g; if 0 < v then v else 0
  | none => 0

/-- `extract_total_amount` (src/app.py:220-264). -/
def extract_total_amount (raw : List Char) : ℚ :=
  let low := pyLower (nbspToSpace raw)
  match (procLines raw).findSome? lineVal with
  | some v => v
  | none =>
    match (findall2F low.length low).getLast? with
    | some g =>
      let v := parse_number g
      if 0 < v then v else stage3Val low
    | none => stage3Val low

/-- Round half to even on `ℤ` of a rational (CPython `round` on the exact
value). -/
def rhe (x : ℚ) : ℤ :=
  let f := ⌊x⌋
  let r := x - (f : ℚ)
  if r < 1 / 2 then f
  else if 1 / 2 < r then f + 1
  else if f % 2 = 0 then f else f + 1

/-- CPython `round(x, 2)` modelled on exact rationals. -/
def round2 (x : ℚ) : ℚ := ((rhe (x * 100) : ℤ) : ℚ) / 100

/-- The savings computation of `preview` (src/app.py:728-729): tiered rate,
cap at 2500, rounded to 2 decimal places, `0.0` for a non-positive total. -/
def savings (total : ℚ) : ℚ :=
  let rate : ℚ := if total < 1000 then 1 / 10 else 3 / 20
  if 0 < total then round2 (min (total * rate) 2500) else 0

/-- The heuristic pipeline of `preview` (src/app.py:724-729): vendor guess,
currency, total, and baseline savings. -/
def preview_core (raw : List Char) : List Char × List Char × ℚ × ℚ :=
  (normalize_vendor (detect_vendor raw), detect_currency raw,
   extract_total_amount raw, savings (extract_total_amount raw))


/-! ## Helper lemmas: rounding -/

theorem rhe_floor_le (x : ℚ) : ⌊x⌋ ≤ rhe x := by
  unfold rhe
  dsimp only
  split_ifs <;> omega

theorem rhe_le_floor_add_one (x : ℚ) : rhe x ≤ ⌊x⌋ + 1 := by
  unfold rhe
  dsimp only
  split_ifs <;> omega

theorem rhe_mono {x y : ℚ} (h : x ≤ y) : rhe x ≤ rhe y := by
  by_cases hf : ⌊x⌋ = ⌊y⌋
  · have hx : x - (⌊x⌋ : ℚ) ≤ y - (⌊y⌋ : ℚ) := by
      rw [hf]; linarith
    unfold rhe
    dsimp only
    rw [hf]
    split_ifs <;> first | omega | (exfalso; linarith)
  · have hlt : ⌊x⌋ < ⌊y⌋ := lt_of_le_of_ne (Int.floor_mono h) hf
    calc rhe x ≤ ⌊x⌋ + 1 := rhe_le_floor_add_one x
      _ ≤ ⌊y⌋ := by omega
      _ ≤ rhe y := rhe_floor_le y

theorem rhe_nonneg {x : ℚ} (h : 0 ≤ x) : 0 ≤ rhe x :=
  le_trans (Int.floor_nonneg.mpr h) (rhe_floor_le x)

theorem round2_mono {x y : ℚ} (h : x ≤ y) : round2 x ≤ round2 y := by
  unfold round2
  have h1 : rhe (x * 100) ≤ rhe (y * 100) := rhe_mono (by linarith)
  have h2 : ((rhe (x * 100) : ℤ) : ℚ) ≤ ((rhe (y * 100) : ℤ) : ℚ) := by exact_mod_cast h1
  linarith

theorem round2_nonneg {x : ℚ} (h : 0 ≤ x) : 0 ≤ round2 x := by
  unfold round2
  have h1 : (0 : ℤ) ≤ rhe (x * 100) := rhe_nonneg (by linarith)
  have h2 : (0 : ℚ) ≤ ((rhe (x * 100) : ℤ) : ℚ) := by exact_mod_cast h1
  linarith

/-! ## Helper lemmas: savings -/

theorem savings_nonneg (b : ℚ) : 0 ≤ savings b := by
  unfold savings
  split_ifs with h1 h2 <;>
    first
      | exact round2_nonneg (le_min (by positivity) (by norm_num))
      | rfl

theorem savings_mono {a b : ℚ} (hab : a ≤ b) :
    savings a ≤ savings b := by
  rcases lt_or_le 0 a with hpos | hz
  · have hbpos : 0 < b := lt_of_lt_of_le hpos hab
    have hb : (0 : ℚ) ≤ b := le_of_lt hbpos
    have hr : a * (if a < 1000 then (1 : ℚ) / 10 else 3 / 20) ≤
        b * (if b < 1000 then (1 : ℚ) / 10 else 3 / 20) := by
      split_ifs with h1 h2 h3 <;> linarith
    unfold savings
    rw [if_pos hpos, if_pos hbpos]
    exact round2_mono (min_le_min hr le_rfl)
  · have hA : savings a = 0 := by
      unfold savings
      rw [if_neg (not_lt.mpr hz)]
    rw [hA]
    exact savings_nonneg b

/-! ## Helper lemmas: findSome? -/

theorem findSome?_append_of_none {α β : Type} (f : α → Option β)
    (pre rest : List α) (h : ∀ x ∈ pre, f x = none) :
    (pre ++ rest).findSome? f = rest.findSome? f := by
  induction pre with
  | nil => rfl
  | cons a l ih =>
    have ha : f a = none := h a (List.mem_cons_self a l)
    simp only [List.cons_append, List.findSome?_cons, ha]
    exact ih fun x hx => h x (List.mem_cons_of_mem a hx)

/-! ## Helper lemmas: characters -/

theorem char_ne_of_toNat_ne {a b : Char} (h : a.toNat ≠ b.toNat) : a ≠ b :=
  fun he => h (congrArg Char.toNat he)

theorem isAsciiDigit_bounds {c : Char} (h : isAsciiDigit c = true) :
    48 ≤ c.toNat ∧ c.toNat ≤ 57 := by
  simpa [isAsciiDigit, Bool.and_eq_true, decide_eq_true_eq] using h

theorem pyIsSpace_eq_false_of_toNat {c : Char} (h1 : 33 ≤ c.toNat)
    (h2 : c.toNat ≤ 255) (h3 : c.toNat ≠ 133) (h4 : c.toNat ≠ 160) :
    pyIsSpace c = false := by
  simp only [pyIsSpace, Bool.or_eq_false_iff, Bool.and_eq_false_iff,
    decide_eq_false_iff_not]
  omega

theorem digit_not_space {c : Char} (h : isAsciiDigit c = true) :
    pyIsSpace c = false := by
  obtain ⟨a, b⟩ := isAsciiDigit_bounds h
  exact pyIsSpace_eq_false_of_toNat (by omega) (by omega) (by omega) (by omega)

theorem digit_ne_space_char {c : Char} (h : isAsciiDigit c = true) : c ≠ ' ' := by
  obtain ⟨a, b⟩ := isAsciiDigit_bounds h
  exact char_ne_of_toNat_ne (by have h32 : (' ' : Char).toNat = 32 := rfl; omega)

theorem digit_ne_dot {c : Char} (h : isAsciiDigit c = true) : c ≠ '.' := by
  obtain ⟨a, b⟩ := isAsciiDigit_bounds h
  exact char_ne_of_toNat_ne (by have h46 : ('.' : Char).toNat = 46 := rfl; omega)

theorem digit_ne_comma {c : Char} (h : isAsciiDigit c = true) : c ≠ ',' := by
  obtain ⟨a, b⟩ := isAsciiDigit_bounds h
  exact char_ne_of_toNat_ne (by have h44 : (',' : Char).toNat = 44 := rfl; omega)

/-! ## Helper lemmas: lists -/

theorem takeWhile_all {f : Char → Bool} {l : List Char}
    (h : ∀ c ∈ l, f c = true) : l.takeWhile f = l := by
  induction l with
  | nil => rfl
  | cons a t ih =>
    simp only [List.takeWhile_cons, h a (List.mem_cons_self a t), if_pos]
    rw [ih fun c hc => h c (List.mem_cons_of_mem a hc)]

theorem takeWhile_append_stop {f : Char → Bool} {a : List Char} {x : Char}
    {b : List Char} (ha : ∀ c ∈ a, f c = true) (hx : f x = false) :
    (a ++ x :: b).takeWhile f = a := by
  induction a with
  | nil => simp [List.takeWhile_cons, hx]
  | cons c t ih =>
    simp only [List.cons_append, List.takeWhile_cons,
      ha c (List.mem_cons_self c t), if_pos]
    rw [ih fun y hy => ha y (List.mem_cons_of_mem c hy)]

theorem dropWhile_all_neg {f : Char → Bool} {l : List Char}
    (h : ∀ c ∈ l, f c = false) : l.dropWhile f = l := by
  cases l with
  | nil => rfl
  | cons a t => simp [List.dropWhile_cons, h a (List.mem_cons_self a t)]

theorem pstrip_eq_self {l : List Char} (h : ∀ c ∈ l, pyIsSpace c = false) :
    pstrip l = l := by
  unfold pstrip stripStart stripEnd
  rw [dropWhile_all_neg h,
    dropWhile_all_neg fun c hc => h c (by rwa [List.mem_reverse] at hc),
    List.reverse_reverse]

theorem map_stable {f : Char → Char} {l : List Char} (h : ∀ c ∈ l, f c = c) :
    l.map f = l := by
  induction l with
  | nil => rfl
  | cons a t ih =>
    rw [List.map_cons, h a (List.mem_cons_self a t),
      ih fun c hc => h c (List.mem_cons_of_mem a hc)]

theorem occursIn_singleton {x : Char} {s : List Char} :
    occursIn [x] s = true ↔ x ∈ s := by
  induction s with
  | nil => simp [occursIn, pfx]
  | cons c t ih =>
    simp [occursIn, pfx, ih, List.mem_cons]

theorem pyRfind_eq_neg_one {x : Char} {l : List Char} (h : x ∉ l) :
    pyRfind x l = -1 := by
  induction l with
  | nil => rfl
  | cons a t ih =>
    simp only [pyRfind]
    rw [ih fun hm => h (List.mem_cons_of_mem a hm)]
    rw [if_neg (by norm_num),
      if_neg fun he => h (by rw [← he]; exact List.mem_cons_self a t)]

theorem pyRfind_append {x : Char} {xs ys : List Char} (h : x ∉ ys) :
    pyRfind x (xs ++ x :: ys) = (xs.length : Int) := by
  induction xs with
  | nil =>
    simp only [List.nil_append, pyRfind]
    rw [pyRfind_eq_neg_one h]
    simp
  | cons a t ih =>
    simp only [List.cons_append, pyRfind, List.append_eq]
    rw [ih, if_pos (by positivity)]
    simp

/-! ## Helper lemmas: pyFloat on digit shapes -/

/-- The decimal value of an integer digit part and a fractional digit part,
interpreting the later separator as the decimal point; this is the
specification-side meaning used to state C4. -/
def decVal (ip fp : List Char) : ℚ :=
  (natDigits ip : ℚ) + (natDigits fp : ℚ) / (10 : ℚ) ^ fp.length

theorem mkRat_decVal (m n k : ℕ) :
    mkRat ((m * 10 ^ k + n : ℕ) : ℤ) (10 ^ k) = (m : ℚ) + (n : ℚ) / (10 : ℚ) ^ k := by
  rw [Rat.mkRat_eq_div]
  push_cast
  have hk : ((10 : ℚ) ^ k) ≠ 0 := by positivity
  field_simp

theorem pyFloatMant_digits_dot (d1 d2 : List Char)
    (h1 : ∀ c ∈ d1, isAsciiDigit c = true) (h2 : ∀ c ∈ d2, isAsciiDigit c = true) :
    pyFloatMant (d1 ++ '.' :: d2) = (d1, d2, []) := by
  unfold pyFloatMant
  dsimp only
  rw [takeWhile_append_stop h1 (by decide), List.drop_left]
  simp [takeWhile_all h2, List.drop_length]

theorem pyFloatMant_digits (d1 : List Char)
    (h1 : ∀ c ∈ d1, isAsciiDigit c = true) :
    pyFloatMant d1 = (d1, [], []) := by
  unfold pyFloatMant
  dsimp only
  rw [takeWhile_all h1, List.drop_length]

theorem pyFloatSign_of_head {s : List Char}
    (h : ∀ hd, s.head? = some hd → hd ≠ '+' ∧ hd ≠ '-') :
    pyFloatSign s = (1, s) := by
  cases s with
  | nil => rfl
  | cons c t =>
    obtain ⟨h1, h2⟩ := h c rfl
    simp [pyFloatSign, h1, h2]

theorem digit_head_sign {rest : List Char} {e : Char}
    (he : isAsciiDigit e = true) :
    ∀ hd, (e :: rest).head? = some hd → hd ≠ '+' ∧ hd ≠ '-' := by
  intro hd hh
  obtain rfl : e = hd := by simpa using hh
  obtain ⟨hb1, hb2⟩ := isAsciiDigit_bounds he
  constructor
  · exact char_ne_of_toNat_ne (by have : ('+' : Char).toNat = 43 := rfl; omega)
  · exact char_ne_of_toNat_ne (by have : ('-' : Char).toNat = 45 := rfl; omega)

theorem pyFloat_digits_dot (d1 d2 : List Char)
    (h1 : ∀ c ∈ d1, isAsciiDigit c = true) (h2 : ∀ c ∈ d2, isAsciiDigit c = true)
    (hne : d1 ≠ []) :
    pyFloat (d1 ++ '.' :: d2) = some (decVal d1 d2) := by
  obtain ⟨e, rest, rfl⟩ : ∃ e rest, d1 = e :: rest := by
    cases d1 with
    | nil => exact absurd rfl hne
    | cons e rest => exact ⟨e, rest, rfl⟩
  have hnosp : ∀ c ∈ (e :: rest) ++ '.' :: d2, pyIsSpace c = false := by
    intro c hc
    rcases List.mem_append.mp hc with hd | hd
    · exact digit_not_space (h1 c hd)
    · rcases List.mem_cons.mp hd with rfl | hd
      · decide
      · exact digit_not_space (h2 c hd)
  have hsign : pyFloatSign ((e :: rest) ++ '.' :: d2) = (1, (e :: rest) ++ '.' :: d2) := by
    refine pyFloatSign_of_head fun hd hh => ?_
    refine @digit_head_sign (rest ++ '.' :: d2) e (h1 e (List.mem_cons_self e rest)) hd ?_
    simpa using hh
  unfold pyFloat
  rw [pstrip_eq_self hnosp, hsign]
  dsimp only
  rw [pyFloatMant_digits_dot (e :: rest) d2 h1 h2]
  dsimp only
  rw [if_neg (by simp)]
  simp only [pyFloatExp]
  rw [show Int.toNat 0 = 0 from rfl, show ((-0 : Int)).toNat = 0 from rfl]
  simp only [pow_zero, mul_one, one_mul, Nat.add_zero]
  rw [mkRat_decVal (natDigits (e :: rest)) (natDigits d2) d2.length]
  rfl

theorem pyFloat_digits (d1 : List Char)
    (h1 : ∀ c ∈ d1, isAsciiDigit c = true) (hne : d1 ≠ []) :
    pyFloat d1 = some ((natDigits d1 : ℚ)) := by
  obtain ⟨e, rest, rfl⟩ : ∃ e rest, d1 = e :: rest := by
    cases d1 with
    | nil => exact absurd rfl hne
    | cons e rest => exact ⟨e, rest, rfl⟩
  have hnosp : ∀ c ∈ e :: rest, pyIsSpace c = false := fun c hc =>
    digit_not_space (h1 c hc)
  have hsign : pyFloatSign (e :: rest) = (1, e :: rest) :=
    pyFloatSign_of_head (digit_head_sign (h1 e (List.mem_cons_self e rest)))
  unfold pyFloat
  rw [pstrip_eq_self hnosp, hsign]
  dsimp only
  rw [pyFloatMant_digits (e :: rest) h1]
  dsimp only
  rw [if_neg (by simp)]
  simp only [pyFloatExp]
  have hv : mkRat ((1 : ℤ) * ((natDigits (e :: rest) * 10 ^ ([] : List Char).length +
      natDigits ([] : List Char) : ℕ) : ℤ) * 10 ^ (Int.toNat 0))
      (10 ^ (([] : List Char).length + Int.toNat (-0))) =
      ((natDigits (e :: rest) : ℚ)) := by
    rw [show Int.toNat 0 = 0 from rfl, show Int.toNat (-0) = 0 from rfl]
    simp only [List.length_nil, pow_zero, mul_one, one_mul, Nat.add_zero]
    rw [show natDigits ([] : List Char) = 0 from rfl, Rat.mkRat_eq_div]
    push_cast
    simp
  rw [hv]

/-! ## Helper lemmas: parse_number on digit shapes -/

theorem filter_ne_space_digits {s : List Char}
    (h : ∀ x ∈ s, isAsciiDigit x = true ∨ x = '.' ∨ x = ',') :
    s.filter (fun x => x ≠ ' ') = s := by
  refine List.filter_eq_self.mpr fun x hx => ?_
  rcases h x hx with hd | rfl | rfl
  · simpa using digit_ne_space_char hd
  · decide
  · decide

theorem nosp_digits {s : List Char}
    (h : ∀ x ∈ s, isAsciiDigit x = true ∨ x = '.' ∨ x = ',') :
    ∀ x ∈ s, pyIsSpace x = false := by
  intro x hx
  rcases h x hx with hd | rfl | rfl
  · exact digit_not_space hd
  · decide
  · decide

theorem filter_dot_digits {a : List Char} (ha : ∀ x ∈ a, isAsciiDigit x = true) :
    a.filter (fun x => x ≠ '.') = a :=
  List.filter_eq_self.mpr fun x hx => by simpa using digit_ne_dot (ha x hx)

theorem filter_comma_digits {a : List Char} (ha : ∀ x ∈ a, isAsciiDigit x = true) :
    a.filter (fun x => x ≠ ',') = a :=
  List.filter_eq_self.mpr fun x hx => by simpa using digit_ne_comma (ha x hx)

theorem map_comma_digits {a : List Char} (ha : ∀ x ∈ a, isAsciiDigit x = true) :
    a.map (fun x => if x = ',' then '.' else x) = a :=
  map_stable fun x hx => if_neg (digit_ne_comma (ha x hx))

theorem parse_number_dot_comma (a b c : List Char)
    (ha : ∀ x ∈ a, isAsciiDigit x = true) (hb : ∀ x ∈ b, isAsciiDigit x = true)
    (hc : ∀ x ∈ c, isAsciiDigit x = true) (hna : a ≠ []) :
    parse_number (a ++ '.' :: b ++ ',' :: c) = decVal (a ++ b) c := by
  have hmem : ∀ x ∈ (a ++ '.' :: b) ++ ',' :: c,
      isAsciiDigit x = true ∨ x = '.' ∨ x = ',' := by
    intro x hx
    rcases List.mem_append.mp hx with hx | hx
    · rcases List.mem_append.mp hx with hx | hx
      · exact Or.inl (ha x hx)
      · rcases List.mem_cons.mp hx with rfl | hx
        · exact Or.inr (Or.inl rfl)
        · exact Or.inl (hb x hx)
    · rcases List.mem_cons.mp hx with rfl | hx
      · exact Or.inr (Or.inr rfl)
      · exact Or.inl (hc x hx)
  have hre : (a ++ '.' :: b) ++ ',' :: c = a ++ '.' :: (b ++ ',' :: c) := by simp
  unfold parse_number
  dsimp only
  rw [pstrip_eq_self (nosp_digits hmem), filter_ne_space_digits hmem]
  rw [if_pos ⟨occursIn_singleton.mpr (by simp), occursIn_singleton.mpr (by simp)⟩]
  have hr1 : pyRfind ',' ((a ++ '.' :: b) ++ ',' :: c) = ((a ++ '.' :: b).length : Int) :=
    pyRfind_append fun hm => digit_ne_comma (hc _ hm) rfl
  have hr2 : pyRfind '.' ((a ++ '.' :: b) ++ ',' :: c) = (a.length : Int) := by
    rw [hre]
    refine pyRfind_append fun hm => ?_
    rcases List.mem_append.mp hm with hm | hm
    · exact digit_ne_dot (hb _ hm) rfl
    · rcases List.mem_cons.mp hm with hh | hm
      · exact absurd hh (by decide)
      · exact digit_ne_dot (hc _ hm) rfl
  rw [if_pos (by rw [hr1, hr2]; simp [List.length_append])]
  have hfil : ((a ++ '.' :: b) ++ ',' :: c).filter (fun x => x ≠ '.') =
      (a ++ b) ++ ',' :: c := by
    simp only [List.filter_append, List.filter_cons, filter_dot_digits ha,
      filter_dot_digits hb, filter_dot_digits hc]
    norm_num
    decide
  rw [hfil]
  have hmap : ((a ++ b) ++ ',' :: c).map (fun x => if x = ',' then '.' else x) =
      (a ++ b) ++ '.' :: c := by
    simp only [List.map_append, List.map_cons, map_comma_digits ha,
      map_comma_digits hb, map_comma_digits hc,
      map_comma_digits (fun x hx => (List.mem_append.mp hx).elim (ha x) (hb x))]
    norm_num
  rw [hmap]
  rw [pyFloat_digits_dot (a ++ b) c
    (fun x hx => (List.mem_append.mp hx).elim (ha x) (hb x)) hc
    (fun hh => hna (List.append_eq_nil.mp hh).1)]

theorem parse_number_comma_dot (a b c : List Char)
    (ha : ∀ x ∈ a, isAsciiDigit x = true) (hb : ∀ x ∈ b, isAsciiDigit x = true)
    (hc : ∀ x ∈ c, isAsciiDigit x = true) (hna : a ≠ []) :
    parse_number (a ++ ',' :: b ++ '.' :: c) = decVal (a ++ b) c := by
  have hmem : ∀ x ∈ (a ++ ',' :: b) ++ '.' :: c,
      isAsciiDigit x = true ∨ x = '.' ∨ x = ',' := by
    intro x hx
    rcases List.mem_append.mp hx with hx | hx
    · rcases List.mem_append.mp hx with hx | hx
      · exact Or.inl (ha x hx)
      · rcases List.mem_cons.mp hx with rfl | hx
        · exact Or.inr (Or.inr rfl)
        · exact Or.inl (hb x hx)
    · rcases List.mem_cons.mp hx with rfl | hx
      · exact Or.inr (Or.inl rfl)
      · exact Or.inl (hc x hx)
  have hre : (a ++ ',' :: b) ++ '.' :: c = a ++ ',' :: (b ++ '.' :: c) := by simp
  unfold parse_number
  dsimp only
  rw [pstrip_eq_self (nosp_digits hmem), filter_ne_space_digits hmem]
  rw [if_pos ⟨occursIn_singleton.mpr (by simp), occursIn_singleton.mpr (by simp)⟩]
  have hr1 : pyRfind '.' ((a ++ ',' :: b) ++ '.' :: c) = ((a ++ ',' :: b).length : Int) :=
    pyRfind_append fun hm => digit_ne_dot (hc _ hm) rfl
  have hr2 : pyRfind ',' ((a ++ ',' :: b) ++ '.' :: c) = (a.length : Int) := by
    rw [hre]
    refine pyRfind_append fun hm => ?_
    rcases List.mem_append.mp hm with hm | hm
    · exact digit_ne_comma (hb _ hm) rfl
    · rcases List.mem_cons.mp hm with hh | hm
      · exact absurd hh (by decide)
      · exact digit_ne_comma (hc _ hm) rfl
  rw [if_neg (by rw [hr1, hr2]; simp [List.length_append]; omega)]
  have hfil : ((a ++ ',' :: b) ++ '.' :: c).filter (fun x => x ≠ ',') =
      (a ++ b) ++ '.' :: c := by
    simp only [List.filter_append, List.filter_cons, filter_comma_digits ha,
      filter_comma_digits hb, filter_comma_digits hc]
    norm_num
    decide
  rw [hfil]
  rw [pyFloat_digits_dot (a ++ b) c
    (fun x hx => (List.mem_append.mp hx).elim (ha x) (hb x)) hc
    (fun hh => hna (List.append_eq_nil.mp hh).1)]

theorem parse_number_comma_only (a c : List Char)
    (ha : ∀ x ∈ a, isAsciiDigit x = true) (hc : ∀ x ∈ c, isAsciiDigit x = true)
    (hna : a ≠ []) :
    parse_number (a ++ ',' :: c) = decVal a c := by
  have hmem : ∀ x ∈ a ++ ',' :: c, isAsciiDigit x = true ∨ x = '.' ∨ x = ',' := by
    intro x hx
    rcases List.mem_append.mp hx with hx | hx
    · exact Or.inl (ha x hx)
    · rcases List.mem_cons.mp hx with rfl | hx
      · exact Or.inr (Or.inr rfl)
      · exact Or.inl (hc x hx)
  have hnodot : occursIn ['.'] (a ++ ',' :: c) = false := by
    rw [← Bool.not_eq_true, occursIn_singleton]
    intro hm
    rcases List.mem_append.mp hm with hm | hm
    · exact digit_ne_dot (ha _ hm) rfl
    · rcases List.mem_cons.mp hm with hh | hm
      · exact absurd hh (by decide)
      · exact digit_ne_dot (hc _ hm) rfl
  unfold parse_number
  dsimp only
  rw [pstrip_eq_self (nosp_digits hmem), filter_ne_space_digits hmem]
  rw [if_neg (by rw [hnodot]; simp)]
  have hmap : (a ++ ',' :: c).map (fun x => if x = ',' then '.' else x) =
      a ++ '.' :: c := by
    simp only [List.map_append, List.map_cons, map_comma_digits ha,
      map_comma_digits hc]
    norm_num
  rw [hmap, pyFloat_digits_dot a c ha hc hna]

theorem parse_number_dot_only (a c : List Char)
    (ha : ∀ x ∈ a, isAsciiDigit x = true) (hc : ∀ x ∈ c, isAsciiDigit x = true)
    (hna : a ≠ []) :
    parse_number (a ++ '.' :: c) = decVal a c := by
  have hmem : ∀ x ∈ a ++ '.' :: c, isAsciiDigit x = true ∨ x = '.' ∨ x = ',' := by
    intro x hx
    rcases List.mem_append.mp hx with hx | hx
    · exact Or.inl (ha x hx)
    · rcases List.mem_cons.mp hx with rfl | hx
      · exact Or.inr (Or.inl rfl)
      · exact Or.inl (hc x hx)
  have hnocomma : occursIn [','] (a ++ '.' :: c) = false := by
    rw [← Bool.not_eq_true, occursIn_singleton]
    intro hm
    rcases List.mem_append.mp hm with hm | hm
    · exact digit_ne_comma (ha _ hm) rfl
    · rcases List.mem_cons.mp hm with hh | hm
      · exact absurd hh (by decide)
      · exact digit_ne_comma (hc _ hm) rfl
  unfold parse_number
  dsimp only
  rw [pstrip_eq_self (nosp_digits hmem), filter_ne_space_digits hmem]
  rw [if_neg (by rw [hnocomma]; simp)]
  have hmap : (a ++ '.' :: c).map (fun x => if x = ',' then '.' else x) =
      a ++ '.' :: c := by
    simp only [List.map_append, List.map_cons, map_comma_digits ha,
      map_comma_digits hc]
    norm_num
  rw [hmap, pyFloat_digits_dot a c ha hc hna]

theorem parse_number_digits (a : List Char)
    (ha : ∀ x ∈ a, isAsciiDigit x = true) (hna : a ≠ []) :
    parse_number a = (natDigits a : ℚ) := by
  have hmem : ∀ x ∈ a, isAsciiDigit x = true ∨ x = '.' ∨ x = ',' := fun x hx =>
    Or.inl (ha x hx)
  have hnocomma : occursIn [','] a = false := by
    rw [← Bool.not_eq_true, occursIn_singleton]
    exact fun hm => digit_ne_comma (ha _ hm) rfl
  unfold parse_number
  dsimp only
  rw [pstrip_eq_self (nosp_digits hmem), filter_ne_space_digits hmem]
  rw [if_neg (by rw [hnocomma]; simp)]
  rw [map_comma_digits ha, pyFloat_digits a ha hna]

/-! ## Helper lemmas: substring occurrence and leftmost replacement -/

theorem pfx_iff {p s : List Char} : pfx p s = true ↔ ∃ t, s = p ++ t := by
  induction p generalizing s with
  | nil => simp [pfx]
  | cons a as ih =>
    cases s with
    | nil => simp [pfx]
    | cons b bs =>
      simp only [pfx, Bool.and_eq_true, decide_eq_true_eq, ih]
      constructor
      · rintro ⟨rfl, t, rfl⟩
        exact ⟨t, rfl⟩
      · rintro ⟨t, ht⟩
        obtain ⟨rfl, rfl⟩ : a = b ∧ bs = as ++ t := by
          constructor
          · exact (List.cons_eq_cons.mp ht).1.symm
          · exact (List.cons_eq_cons.mp ht).2
        exact ⟨rfl, t, rfl⟩

theorem pfx_refl (l : List Char) : pfx l l = true :=
  pfx_iff.mpr ⟨[], by simp⟩

theorem pfx_length_le {p s : List Char} (h : pfx p s = true) : p.length ≤ s.length := by
  obtain ⟨t, rfl⟩ := pfx_iff.mp h
  simp

theorem pfx_take {p s : List Char} (h : pfx p s = true) : s.take p.length = p := by
  obtain ⟨t, rfl⟩ := pfx_iff.mp h
  simp

theorem pfx_eq_of_length {p s : List Char} (h : pfx p s = true)
    (hl : p.length = s.length) : p = s := by
  obtain ⟨t, rfl⟩ := pfx_iff.mp h
  have ht : t = [] := List.length_eq_zero.mp (by simp only [List.length_append] at hl; omega)
  simp [ht]

theorem pfx_append_right {p s t : List Char} (h : pfx p s = true) :
    pfx p (s ++ t) = true := by
  obtain ⟨u, rfl⟩ := pfx_iff.mp h
  exact pfx_iff.mpr ⟨u ++ t, by simp⟩

theorem pfx_append_cases {u x y : List Char} (h : pfx u (x ++ y) = true) :
    pfx u x = true ∨ (pfx x u = true ∧ pfx (u.drop x.length) y = true) := by
  induction x generalizing u with
  | nil =>
    right
    exact ⟨rfl, by simpa using h⟩
  | cons a xs ih =>
    cases u with
    | nil => exact Or.inl rfl
    | cons b us =>
      simp only [List.cons_append, pfx, Bool.and_eq_true, decide_eq_true_eq] at h ⊢
      obtain ⟨rfl, h2⟩ := h
      rcases ih h2 with h3 | ⟨h3, h4⟩
      · exact Or.inl ⟨rfl, h3⟩
      · exact Or.inr ⟨⟨rfl, h3⟩, h4⟩

theorem sfx_iff {p s : List Char} : sfx p s = true ↔ ∃ u, s = u ++ p := by
  unfold sfx
  rw [pfx_iff]
  constructor
  · rintro ⟨t, ht⟩
    refine ⟨t.reverse, ?_⟩
    have := congrArg List.reverse ht
    simpa using this
  · rintro ⟨u, rfl⟩
    exact ⟨u.reverse, by simp⟩

theorem sfx_refl (l : List Char) : sfx l l = true :=
  sfx_iff.mpr ⟨[], by simp⟩

theorem sfx_cons {u v : List Char} {c : Char} (h : sfx u v = true) :
    sfx u (c :: v) = true := by
  obtain ⟨w, rfl⟩ := sfx_iff.mp h
  exact sfx_iff.mpr ⟨c :: w, rfl⟩

theorem occursIn_iff {r s : List Char} :
    occursIn r s = true ↔ ∃ u v, s = u ++ r ++ v := by
  induction s with
  | nil =>
    simp only [occursIn, pfx_iff]
    constructor
    · rintro ⟨t, ht⟩
      exact ⟨[], t, by simpa using ht⟩
    · rintro ⟨u, v, huv⟩
      have hu : u = [] ∧ r ++ v = [] := by
        constructor
        · cases u with
          | nil => rfl
          | cons a us => simp at huv
        · cases u with
          | nil => simpa using huv.symm
          | cons a us => simp at huv
      exact ⟨v, by simp [hu.2]⟩
  | cons c t ih =>
    simp only [occursIn, Bool.or_eq_true, pfx_iff, ih]
    constructor
    · rintro (⟨w, hw⟩ | ⟨u, v, rfl⟩)
      · exact ⟨[], w, by simpa using hw⟩
      · exact ⟨c :: u, v, by simp⟩
    · rintro ⟨u, v, huv⟩
      cases u with
      | nil =>
        left
        exact ⟨v, by simpa using huv⟩
      | cons a us =>
        right
        refine ⟨us, v, ?_⟩
        have := List.cons_eq_cons.mp (by simpa using huv)
        exact this.2.trans (List.append_assoc us r v).symm

theorem occursIn_of_pfx {r s : List Char} (h : pfx r s = true) :
    occursIn r s = true := by
  obtain ⟨t, rfl⟩ := pfx_iff.mp h
  exact occursIn_iff.mpr ⟨[], t, by simp⟩

theorem occursIn_cons_false {r : List Char} {c : Char} {t : List Char}
    (h : occursIn r (c :: t) = false) : occursIn r t = false := by
  revert h
  simp only [occursIn, Bool.or_eq_false_iff]
  exact fun h => h.2

theorem occursIn_drop_false {r s : List Char} {n : Nat}
    (h : occursIn r s = false) : occursIn r (s.drop n) = false := by
  by_contra hx
  have hx2 : occursIn r (s.drop n) = true := by
    revert hx; cases occursIn r (s.drop n) <;> simp
  obtain ⟨u, v, huv⟩ := occursIn_iff.mp hx2
  have : occursIn r s = true := by
    refine occursIn_iff.mpr ⟨s.take n ++ u, v, ?_⟩
    conv_lhs => rw [← List.take_append_drop n s, huv]
    simp [List.append_assoc]
  rw [this] at h
  exact absurd h (by simp)

theorem occ_append {r a b : List Char} (h : occursIn r (a ++ b) = true) :
    occursIn r a = true ∨ occursIn r b = true ∨
    ∃ j, 0 < j ∧ j < r.length ∧ sfx (r.take j) a = true ∧ pfx (r.drop j) b = true := by
  induction a generalizing r with
  | nil => exact Or.inr (Or.inl (by simpa using h))
  | cons c a ih =>
    rw [List.cons_append] at h
    rcases (by simpa only [occursIn, Bool.or_eq_true] using h :
        pfx r (c :: (a ++ b)) = true ∨ occursIn r (a ++ b) = true) with hp | ho
    · cases r with
      | nil => exact Or.inl (by simp [occursIn, pfx])
      | cons d r =>
        simp only [pfx, Bool.and_eq_true, decide_eq_true_eq] at hp
        obtain ⟨rfl, h2⟩ := hp
        rcases pfx_append_cases h2 with h3 | ⟨h3, h4⟩
        · refine Or.inl (occursIn_of_pfx ?_)
          simp only [pfx, Bool.and_eq_true, decide_eq_true_eq]
          exact ⟨by trivial, h3⟩
        · rcases Nat.lt_or_ge a.length r.length with hlt | hge
          · refine Or.inr (Or.inr ⟨a.length + 1, by omega, by simp; omega, ?_, ?_⟩)
            · have htake : (d :: r).take (a.length + 1) = d :: a := by
                simp [List.take_cons, pfx_take h3]
              rw [htake]
              exact sfx_refl (d :: a)
            · simpa using h4
          · have hlen : a.length = r.length := le_antisymm (pfx_length_le h3) hge
            have : a = r := pfx_eq_of_length h3 hlen
            subst this
            refine Or.inl (occursIn_of_pfx ?_)
            simp only [pfx, Bool.and_eq_true, decide_eq_true_eq]
            exact ⟨by trivial, pfx_refl a⟩
    · rcases ih ho with h1 | h1 | ⟨j, hj1, hj2, hj3, hj4⟩
      · refine Or.inl ?_
        simp only [occursIn, Bool.or_eq_true]
        exact Or.inr h1
      · exact Or.inr (Or.inl h1)
      · exact Or.inr (Or.inr ⟨j, hj1, hj2, sfx_cons hj3, hj4⟩)

theorem pfx_nil_false {r : List Char} (h : r ≠ []) : pfx r [] = false := by
  cases r with
  | nil => exact absurd rfl h
  | cons a t => rfl

theorem replF_nil (p q : List Char) (fuel : Nat) : replF p q fuel [] = [] := by
  cases fuel <;> rfl

/-- Pending-match lemma: under the junction conditions on `r` against `q`,
a strict nonempty suffix of `r` that is a prefix of the replacement output
was already a prefix of the input. -/
theorem repl_pending (p q r : List Char)
    (HB : ∀ m, m < r.length → 0 < m →
      pfx (r.drop m) q = false ∧ pfx q (r.drop m) = false) :
    ∀ fuel t, t.length ≤ fuel → ∀ m, 0 < m → m < r.length →
      pfx (r.drop m) (replF p q fuel t) = true → pfx (r.drop m) t = true := by
  intro fuel
  induction fuel with
  | zero =>
    intro t ht m hm1 hm2 hp
    have ht0 : t = [] := List.length_eq_zero.mp (by omega)
    subst ht0
    rwa [replF_nil] at hp
  | succ n ih =>
    intro t ht m hm1 hm2 hp
    cases t with
    | nil => rwa [replF_nil] at hp
    | cons c t =>
      rw [replF] at hp
      by_cases hcond : 0 < p.length ∧ pfx p (c :: t) = true
      · rw [if_pos hcond] at hp
        rcases pfx_append_cases hp with h1 | ⟨h1, h2⟩
        · rw [(HB m hm2 hm1).1] at h1
          exact absurd h1 (by simp)
        · rw [(HB m hm2 hm1).2] at h1
          exact absurd h1 (by simp)
      · rw [if_neg hcond] at hp
        rw [List.drop_eq_getElem_cons hm2] at hp ⊢
        simp only [pfx, Bool.and_eq_true, decide_eq_true_eq] at hp ⊢
        refine ⟨hp.1, ?_⟩
        rcases Nat.lt_or_ge (m + 1) r.length with hlt | hge
        · exact ih t (by simpa using ht) (m + 1) (by omega) hlt hp.2
        · have : r.drop (m + 1) = [] := List.drop_eq_nil_of_le (by omega)
          rw [this]
          rfl

/-- Main absence lemma: under the junction conditions, the pattern `r`
does not occur in the output of the leftmost replacement of `p` by `q`
(either `r` is `p` itself, or `r` did not occur in the input). -/
theorem repl_clean (p q r : List Char) (hr2 : 2 ≤ r.length)
    (HQ : occursIn r q = false)
    (HA : ∀ j, j < r.length → 0 < j → sfx (r.take j) q = false)
    (HB : ∀ m, m < r.length → 0 < m →
      pfx (r.drop m) q = false ∧ pfx q (r.drop m) = false) :
    ∀ fuel s, s.length ≤ fuel → (r = p ∨ occursIn r s = false) →
      occursIn r (replF p q fuel s) = false := by
  have hrne : r ≠ [] := by
    intro h0
    rw [h0] at hr2
    simp at hr2
  intro fuel
  induction fuel with
  | zero =>
    intro s hs hside
    have hs0 : s = [] := List.length_eq_zero.mp (by omega)
    subst hs0
    rw [replF_nil]
    simp [occursIn, pfx_nil_false hrne]
  | succ n ih =>
    intro s hs hside
    cases s with
    | nil =>
      rw [replF_nil]
      simp [occursIn, pfx_nil_false hrne]
    | cons c t =>
      rw [replF]
      by_cases hcond : 0 < p.length ∧ pfx p (c :: t) = true
      · rw [if_pos hcond]
        by_contra hocc
        have hocc2 : occursIn r (q ++ replF p q n ((c :: t).drop p.length)) = true := by
          revert hocc; cases occursIn r (q ++ replF p q n ((c :: t).drop p.length)) <;> simp
        have hX : occursIn r (replF p q n ((c :: t).drop p.length)) = false := by
          refine ih ((c :: t).drop p.length)
            (by simp only [List.length_drop, List.length_cons] at *; omega) ?_
          rcases hside with h | h
          · exact Or.inl h
          · exact Or.inr (occursIn_drop_false h)
        rcases occ_append hocc2 with h1 | h1 | ⟨j, hj1, hj2, hj3, hj4⟩
        · rw [HQ] at h1; exact absurd h1 (by simp)
        · rw [hX] at h1; exact absurd h1 (by simp)
        · rw [HA j hj2 hj1] at hj3; exact absurd hj3 (by simp)
      · rw [if_neg hcond]
        have hXt : occursIn r (replF p q n t) = false := by
          refine ih t (by simpa using hs) ?_
          rcases hside with h | h
          · exact Or.inl h
          · exact Or.inr (occursIn_cons_false h)
        simp only [occursIn, Bool.or_eq_false_iff]
        refine ⟨?_, hXt⟩
        by_contra hpfx
        have hpfx2 : pfx r (c :: replF p q n t) = true := by
          revert hpfx; cases pfx r (c :: replF p q n t) <;> simp
        cases hr : r with
        | nil => exact hrne hr
        | cons d r0 =>
          subst hr
          simp only [pfx, Bool.and_eq_true, decide_eq_true_eq] at hpfx2
          obtain ⟨heq, htail⟩ := hpfx2
          have hd1 : (d :: r0).drop 1 = r0 := rfl
          have hpend : pfx ((d :: r0).drop 1) t = true := by
            refine repl_pending p q (d :: r0) HB n t (by simpa using hs) 1
              (by omega) (by simpa using hr2) ?_
            rw [hd1]
            exact htail
          have hfull : pfx (d :: r0) (c :: t) = true := by
            simp only [pfx, Bool.and_eq_true, decide_eq_true_eq]
            exact ⟨heq, by rwa [hd1] at hpend⟩
          rcases hside with h | h
          · rw [← h] at hcond
            exact hcond ⟨by omega, hfull⟩
          · have : occursIn (d :: r0) (c :: t) = true := occursIn_of_pfx hfull
            rw [this] at h
            exact absurd h (by simp)

/-- If the pattern does not occur, the replacement is the identity. -/
theorem repl_id (p q : List Char) :
    ∀ fuel s, s.length ≤ fuel → occursIn p s = false → replF p q fuel s = s := by
  intro fuel
  induction fuel with
  | zero =>
    intro s hs _
    have hs0 : s = [] := List.length_eq_zero.mp (by omega)
    subst hs0
    rw [replF_nil]
  | succ n ih =>
    intro s hs hocc
    cases s with
    | nil => rw [replF_nil]
    | cons c t =>
      rw [replF]
      have hnp : ¬(0 < p.length ∧ pfx p (c :: t) = true) := by
        rintro ⟨h1, h2⟩
        have := occursIn_of_pfx h2
        rw [this] at hocc
        exact absurd hocc (by simp)
      rw [if_neg hnp]
      rw [ih t (by simpa using hs) (occursIn_cons_false hocc)]

theorem replF_ne_nil (p q : List Char) (hq : q ≠ []) :
    ∀ fuel s, s ≠ [] → replF p q fuel s ≠ [] := by
  intro fuel
  cases fuel with
  | zero =>
    intro s hs
    cases s with
    | nil => exact absurd rfl hs
    | cons c t =>
      rw [show replF p q 0 (c :: t) = c :: t from rfl]
      simp
  | succ n =>
    intro s hs
    cases s with
    | nil => exact absurd rfl hs
    | cons c t =>
      rw [replF]
      by_cases hcond : 0 < p.length ∧ pfx p (c :: t) = true
      · rw [if_pos hcond]
        simp [hq]
      · rw [if_neg hcond]
        simp

theorem replF_head (p q : List Char) (hq : q ≠ []) :
    ∀ fuel s, s ≠ [] → (replF p q fuel s).head? = q.head? ∨
      (replF p q fuel s).head? = s.head? := by
  intro fuel s hs
  cases fuel with
  | zero =>
    cases s with
    | nil => exact absurd rfl hs
    | cons c t => exact Or.inr rfl
  | succ n =>
    cases s with
    | nil => exact absurd rfl hs
    | cons c t =>
      rw [replF]
      by_cases hcond : 0 < p.length ∧ pfx p (c :: t) = true
      · rw [if_pos hcond]
        exact Or.inl (List.head?_append_of_ne_nil _ hq)
      · rw [if_neg hcond]
        exact Or.inr rfl

theorem replF_getLast (p q : List Char) (hq : q ≠ []) :
    ∀ fuel s, s ≠ [] → s.length ≤ fuel → (replF p q fuel s).getLast? = q.getLast? ∨
      (replF p q fuel s).getLast? = s.getLast? := by
  intro fuel
  induction fuel with
  | zero =>
    intro s hs hl
    have : s = [] := List.length_eq_zero.mp (by omega)
    exact absurd this hs
  | succ n ih =>
    intro s hs hl
    cases s with
    | nil => exact absurd rfl hs
    | cons c t =>
      rw [replF]
      by_cases hcond : 0 < p.length ∧ pfx p (c :: t) = true
      · rw [if_pos hcond]
        by_cases hX : (c :: t).drop p.length = []
        · rw [hX, replF_nil, List.append_nil]
          exact Or.inl rfl
        · have hXne : replF p q n ((c :: t).drop p.length) ≠ [] :=
            replF_ne_nil p q hq n _ hX
          rw [List.getLast?_append_of_ne_nil _ hXne]
          rcases ih ((c :: t).drop p.length) hX
            (by simp only [List.length_drop, List.length_cons] at *; omega) with h | h
          · exact Or.inl h
          · right
            rw [h]
            have hds : (c :: t).drop p.length ≠ [] := hX
            conv_rhs => rw [← List.take_append_drop p.length (c :: t)]
            rw [List.getLast?_append_of_ne_nil _ hds]
      · rw [if_neg hcond]
        cases ht : t with
        | nil =>
          subst ht
          rw [replF_nil]
          exact Or.inr rfl
        | cons d t0 =>
          have htne : t ≠ [] := by rw [ht]; simp
          rw [← ht]
          have hXne : replF p q n t ≠ [] := replF_ne_nil p q hq n t htne
          rw [show (c :: replF p q n t).getLast? = (replF p q n t).getLast? from
            List.getLast?_append_of_ne_nil [c] hXne]
          rcases ih t htne (by simpa using hl) with h | h
          · exact Or.inl h
          · right
            rw [h]
            exact (List.getLast?_append_of_ne_nil [c] htne).symm

/-! ## Helper lemmas: pstrip and ends -/

theorem head?_dropWhile_false {f : Char → Bool} {l : List Char} :
    ∀ hd, (l.dropWhile f).head? = some hd → f hd = false := by
  induction l with
  | nil => intro hd h; simp at h
  | cons a t ih =>
    intro hd h
    rw [List.dropWhile_cons] at h
    by_cases ha : f a = true
    · rw [if_pos ha] at h
      exact ih hd h
    · rw [if_neg ha] at h
      obtain rfl : a = hd := by simpa using h
      simpa using ha

theorem stripEnd_prefix (x : List Char) : ∃ u, x = stripEnd x ++ u := by
  obtain ⟨u, hu⟩ := @List.dropWhile_suffix Char x.reverse pyIsSpace
  refine ⟨u.reverse, ?_⟩
  have hx := congrArg List.reverse hu
  simp only [List.reverse_append, List.reverse_reverse] at hx
  exact (by simpa [stripEnd] using hx.symm)

theorem head?_of_front {x y u : List Char} (hxy : x = y ++ u) {hd : Char}
    (h : y.head? = some hd) : x.head? = some hd := by
  subst hxy
  have hy : y ≠ [] := by
    intro h0
    rw [h0] at h
    simp at h
  rw [List.head?_append_of_ne_nil _ hy]
  exact h

theorem pstrip_head_false {l : List Char} :
    ∀ hd, (pstrip l).head? = some hd → pyIsSpace hd = false := by
  intro hd h
  obtain ⟨u, hu⟩ := stripEnd_prefix (stripStart l)
  exact head?_dropWhile_false hd (head?_of_front hu h)

theorem pstrip_last_false {l : List Char} :
    ∀ lst, (pstrip l).getLast? = some lst → pyIsSpace lst = false := by
  intro lst h
  unfold pstrip stripEnd at h
  rw [List.getLast?_reverse] at h
  exact head?_dropWhile_false lst h

theorem stripStart_eq_self_of_head {l : List Char}
    (h : ∀ hd, l.head? = some hd → pyIsSpace hd = false) : stripStart l = l := by
  cases l with
  | nil => rfl
  | cons c t =>
    unfold stripStart
    rw [List.dropWhile_cons, if_neg (by simp [h c rfl])]

theorem stripEnd_eq_self_of_last {l : List Char}
    (h : ∀ lst, l.getLast? = some lst → pyIsSpace lst = false) : stripEnd l = l := by
  unfold stripEnd
  cases hrev : l.reverse with
  | nil =>
    have : l = [] := by simpa using congrArg List.reverse hrev
    simp [this]
  | cons a r =>
    have ha : l.getLast? = some a := by
      rw [← List.head?_reverse, hrev]
      rfl
    rw [List.dropWhile_cons, if_neg (by simp [h a ha])]
    rw [← hrev, List.reverse_reverse]

theorem pstrip_eq_self_of_ends {l : List Char}
    (h1 : ∀ hd, l.head? = some hd → pyIsSpace hd = false)
    (h2 : ∀ lst, l.getLast? = some lst → pyIsSpace lst = false) : pstrip l = l := by
  unfold pstrip
  rw [stripStart_eq_self_of_head h1, stripEnd_eq_self_of_last h2]

theorem pstrip_ne_nil_of_head {l : List Char} {hd : Char} (h : l.head? = some hd)
    (hns : pyIsSpace hd = false) : pstrip l ≠ [] := by
  have hss : stripStart l = l := by
    refine stripStart_eq_self_of_head fun c hc => ?_
    rw [h] at hc
    obtain rfl : hd = c := Option.some.inj hc
    exact hns
  unfold pstrip
  rw [hss]
  unfold stripEnd
  intro h0
  have hdw : l.reverse.dropWhile pyIsSpace = [] := by
    simpa using congrArg List.reverse h0
  have hall : ∀ x ∈ l.reverse, pyIsSpace x = true := by
    intro x hx
    exact List.dropWhile_eq_nil_iff.mp hdw x hx
  have hmem : hd ∈ l.reverse := by
    rw [List.mem_reverse]
    cases l with
    | nil => simp at h
    | cons c t =>
      have hch : c = hd := by simpa using h
      rw [← hch]
      exact List.mem_cons_self c t
  rw [hall hd hmem] at hns
  exact absurd hns (by simp)

theorem head_fact {l : List Char} {c : Char} (hc : l.head? = some c)
    (hns : pyIsSpace c = false) :
    ∀ hd, l.head? = some hd → pyIsSpace hd = false := by
  intro hd h
  rw [hc] at h
  obtain rfl : c = hd := Option.some.inj h
  exact hns

theorem last_fact {l : List Char} {c : Char} (hc : l.getLast? = some c)
    (hns : pyIsSpace c = false) :
    ∀ lst, l.getLast? = some lst → pyIsSpace lst = false := by
  intro lst h
  rw [hc] at h
  obtain rfl : c = lst := Option.some.inj h
  exact hns

/-! ## Helper lemmas: repl at the wrapper level -/

theorem repl_clean' (p q r s : List Char) (hr2 : 2 ≤ r.length)
    (HQ : occursIn r q = false)
    (HA : ∀ j, j < r.length → 0 < j → sfx (r.take j) q = false)
    (HB : ∀ m, m < r.length → 0 < m →
      pfx (r.drop m) q = false ∧ pfx q (r.drop m) = false)
    (hside : r = p ∨ occursIn r s = false) :
    occursIn r (repl p q s) = false :=
  repl_clean p q r hr2 HQ HA HB s.length s le_rfl hside

theorem repl_id' (p q s : List Char) (h : occursIn p s = false) :
    repl p q s = s :=
  repl_id p q s.length s le_rfl h

theorem repl_ne_nil' (p q s : List Char) (hq : q ≠ []) (hs : s ≠ []) :
    repl p q s ≠ [] :=
  replF_ne_nil p q hq s.length s hs

theorem repl_head_not_space {p q s : List Char} (hq : q ≠ [])
    (hqh : ∀ hd, q.head? = some hd → pyIsSpace hd = false)
    (hsh : ∀ hd, s.head? = some hd → pyIsSpace hd = false) :
    ∀ hd, (repl p q s).head? = some hd → pyIsSpace hd = false := by
  intro hd h
  cases hs : s with
  | nil =>
    rw [hs] at h
    rw [show repl p q [] = [] from replF_nil p q 0] at h
    simp at h
  | cons c t =>
    rcases replF_head p q hq s.length s (by rw [hs]; simp) with hh | hh
    · exact hqh hd (by rw [← hh]; exact h)
    · exact hsh hd (by rw [← hh]; exact h)

theorem repl_last_not_space {p q s : List Char} (hq : q ≠ [])
    (hql : ∀ lst, q.getLast? = some lst → pyIsSpace lst = false)
    (hsl : ∀ lst, s.getLast? = some lst → pyIsSpace lst = false) :
    ∀ lst, (repl p q s).getLast? = some lst → pyIsSpace lst = false := by
  intro lst h
  cases hs : s with
  | nil =>
    rw [hs] at h
    rw [show repl p q [] = [] from replF_nil p q 0] at h
    simp at h
  | cons c t =>
    rcases replF_getLast p q hq s.length s (by rw [hs]; simp) le_rfl with hh | hh
    · exact hql lst (by rw [← hh]; exact h)
    · exact hsl lst (by rw [← hh]; exact h)

/-! ## Idempotence of normalize_vendor -/

/-- Core idempotence: on inputs that are empty or not whitespace-only,
`normalize_vendor` is idempotent.  (On a nonempty all-whitespace input it
returns the empty string, whose normalization is "UNKNOWN".) -/
theorem normalize_vendor_idem (v : List Char) (hv : v = [] ∨ pstrip v ≠ []) :
    normalize_vendor (normalize_vendor v) = normalize_vendor v := by
  rcases hv with rfl | h2
  · decide
  · have hvne : v ≠ [] := by
      intro h0
      rw [h0] at h2
      exact h2 rfl
    have hnv : normalize_vendor v =
        repl "Google workspace".toList "Google Workspace".toList
          (repl "Hubspot".toList "HubSpot".toList
            (repl "Aws".toList "AWS".toList
              (repl "Ia".toList "IA".toList (pstrip v)))) := by
      unfold normalize_vendor
      rw [if_neg hvne]
    set s0 := pstrip v with hs0
    set A1 := repl "Ia".toList "IA".toList s0 with hA1
    set A2 := repl "Aws".toList "AWS".toList A1 with hA2
    set A3 := repl "Hubspot".toList "HubSpot".toList A2 with hA3
    set A4 := repl "Google workspace".toList "Google Workspace".toList A3 with hA4
    have h1ne : A1 ≠ [] := repl_ne_nil' _ _ _ (by decide) h2
    have h2ne : A2 ≠ [] := repl_ne_nil' _ _ _ (by decide) h1ne
    have h3ne : A3 ≠ [] := repl_ne_nil' _ _ _ (by decide) h2ne
    have h4ne : A4 ≠ [] := repl_ne_nil' _ _ _ (by decide) h3ne
    -- no occurrence of any of the four patterns in the final string
    have oIa1 : occursIn "Ia".toList A1 = false :=
      repl_clean' _ _ _ _ (by decide) (by decide) (by decide) (by decide) (Or.inl rfl)
    have oIa2 : occursIn "Ia".toList A2 = false :=
      repl_clean' _ _ _ _ (by decide) (by decide) (by decide) (by decide) (Or.inr oIa1)
    have oIa3 : occursIn "Ia".toList A3 = false :=
      repl_clean' _ _ _ _ (by decide) (by decide) (by decide) (by decide) (Or.inr oIa2)
    have oIa4 : occursIn "Ia".toList A4 = false :=
      repl_clean' _ _ _ _ (by decide) (by decide) (by decide) (by decide) (Or.inr oIa3)
    have oAws2 : occursIn "Aws".toList A2 = false :=
      repl_clean' _ _ _ _ (by decide) (by decide) (by decide) (by decide) (Or.inl rfl)
    have oAws3 : occursIn "Aws".toList A3 = false :=
      repl_clean' _ _ _ _ (by decide) (by decide) (by decide) (by decide) (Or.inr oAws2)
    have oAws4 : occursIn "Aws".toList A4 = false :=
      repl_clean' _ _ _ _ (by decide) (by decide) (by decide) (by decide) (Or.inr oAws3)
    have oHub3 : occursIn "Hubspot".toList A3 = false :=
      repl_clean' _ _ _ _ (by decide) (by decide) (by decide) (by decide) (Or.inl rfl)
    have oHub4 : occursIn "Hubspot".toList A4 = false :=
      repl_clean' _ _ _ _ (by decide) (by decide) (by decide) (by decide) (Or.inr oHub3)
    have oGws4 : occursIn "Google workspace".toList A4 = false :=
      repl_clean' _ _ _ _ (by decide) (by decide) (by decide) (by decide) (Or.inl rfl)
    -- heads and tails of the final string are not whitespace
    have hh4 : ∀ hd, A4.head? = some hd → pyIsSpace hd = false := by
      refine repl_head_not_space (by decide) (head_fact rfl (by decide)) ?_
      refine repl_head_not_space (by decide) (head_fact rfl (by decide)) ?_
      refine repl_head_not_space (by decide) (head_fact rfl (by decide)) ?_
      refine repl_head_not_space (by decide) (head_fact rfl (by decide)) ?_
      exact pstrip_head_false
    have hl4 : ∀ lst, A4.getLast? = some lst → pyIsSpace lst = false := by
      refine repl_last_not_space (by decide) (last_fact rfl (by decide)) ?_
      refine repl_last_not_space (by decide) (last_fact rfl (by decide)) ?_
      refine repl_last_not_space (by decide) (last_fact rfl (by decide)) ?_
      refine repl_last_not_space (by decide) (last_fact rfl (by decide)) ?_
      exact pstrip_last_false
    rw [hnv]
    unfold normalize_vendor
    rw [if_neg h4ne]
    dsimp only
    rw [pstrip_eq_self_of_ends hh4 hl4]
    rw [repl_id' _ _ _ oIa4, repl_id' _ _ _ oAws4, repl_id' _ _ _ oHub4,
      repl_id' _ _ _ oGws4]

/-! ## Helper lemmas: title casing and the vendor stages -/

theorem charOfNatToNat {n : Nat} (h : n < 55296) : (Char.ofNat n).toNat = n := by
  rw [Char.ofNat, dif_pos (Or.inl h)]
  rfl

theorem pyUpperChar_toNat (c : Char) : (pyUpperChar c).toNat =
    if 97 ≤ c.toNat ∧ c.toNat ≤ 122 then c.toNat - 32
    else if 224 ≤ c.toNat ∧ c.toNat ≤ 254 ∧ c.toNat ≠ 247 then c.toNat - 32
    else c.toNat := by
  unfold pyUpperChar
  split_ifs with h1 h2
  · exact charOfNatToNat (by omega)
  · exact charOfNatToNat (by omega)
  · rfl

theorem pyLowerChar_toNat (c : Char) : (pyLowerChar c).toNat =
    if 65 ≤ c.toNat ∧ c.toNat ≤ 90 then c.toNat + 32
    else if 192 ≤ c.toNat ∧ c.toNat ≤ 222 ∧ c.toNat ≠ 215 then c.toNat + 32
    else c.toNat := by
  unfold pyLowerChar
  split_ifs with h1 h2
  · exact charOfNatToNat (by omega)
  · exact charOfNatToNat (by omega)
  · rfl

theorem pyIsAlpha_bounds {c : Char} (h : pyIsAlpha c = true) :
    65 ≤ c.toNat ∧ c.toNat ≤ 255 ∧ c.toNat ≠ 133 ∧ c.toNat ≠ 160 := by
  simp only [pyIsAlpha, Bool.or_eq_true, Bool.and_eq_true, decide_eq_true_eq] at h
  omega

theorem alpha_upper_not_space {c : Char} (h : pyIsAlpha c = true) :
    pyIsSpace (pyUpperChar c) = false := by
  obtain ⟨h1, h2, h3, h4⟩ := pyIsAlpha_bounds h
  refine pyIsSpace_eq_false_of_toNat ?_ ?_ ?_ ?_ <;>
    · rw [pyUpperChar_toNat]
      split_ifs <;> omega

theorem alpha_lower_not_space {c : Char} (h : pyIsAlpha c = true) :
    pyIsSpace (pyLowerChar c) = false := by
  obtain ⟨h1, h2, h3, h4⟩ := pyIsAlpha_bounds h
  refine pyIsSpace_eq_false_of_toNat ?_ ?_ ?_ ?_ <;>
    · rw [pyLowerChar_toNat]
      split_ifs <;> omega

theorem pyTitle_head_not_space {s : List Char}
    (h : ∀ hd, s.head? = some hd → pyIsSpace hd = false) :
    ∀ hd, (pyTitle s).head? = some hd → pyIsSpace hd = false := by
  cases s with
  | nil => intro hd hh; simp [pyTitle, pyTitleGo] at hh
  | cons c t =>
    intro hd hh
    rw [pyTitle, pyTitleGo] at hh
    have hhd : (if pyIsAlpha c = true then
        (if false = true then pyLowerChar c else pyUpperChar c) else c) = hd := by
      simpa using hh
    by_cases ha : pyIsAlpha c = true
    · rw [if_pos ha, if_neg (by simp)] at hhd
      rw [← hhd]
      exact alpha_upper_not_space ha
    · rw [if_neg ha] at hhd
      rw [← hhd]
      exact h c rfl

theorem gateLen_shape {cap cand : List Char} (h : gateLen cap = some cand) :
    cand = pstrip ((pstrip cap).takeWhile (fun x => x ≠ '\n')) ∧ 3 ≤ cand.length := by
  unfold gateLen at h
  by_cases hc : 3 ≤ (pstrip ((pstrip cap).takeWhile (fun x => x ≠ '\n'))).length ∧
      (pstrip ((pstrip cap).takeWhile (fun x => x ≠ '\n'))).length ≤ 80
  · rw [if_pos hc] at h
    obtain rfl : pstrip ((pstrip cap).takeWhile (fun x => x ≠ '\n')) = cand :=
      Option.some.inj h
    exact ⟨rfl, hc.1⟩
  · rw [if_neg hc] at h
    exact absurd h (by simp)

theorem vendorStage2_shape {raw cand : List Char} (h : vendorStage2 raw = some cand) :
    (∃ z, cand = pstrip z) ∧ 3 ≤ cand.length := by
  unfold vendorStage2 at h
  rcases ho : (searchCap (fun s => (matchAlt1 s).bind afterLabel) raw).bind gateLen with
    _ | c1
  · rw [ho] at h
    have h2 : (searchCap (fun s => (matchAlt2 s).bind afterLabel) raw).bind gateLen =
        some cand := by simpa using h
    obtain ⟨cap, hcap, hg⟩ := Option.bind_eq_some.mp h2
    obtain ⟨hshape, hlen⟩ := gateLen_shape hg
    exact ⟨⟨_, hshape⟩, hlen⟩
  · rw [ho] at h
    obtain rfl : c1 = cand := by simpa using h
    obtain ⟨cap, hcap, hg⟩ := Option.bind_eq_some.mp ho
    obtain ⟨hshape, hlen⟩ := gateLen_shape hg
    exact ⟨⟨_, hshape⟩, hlen⟩

theorem vendorStage3_shape {text l : List Char} (h : vendorStage3 text = some l) :
    (∃ z, l = pstrip z) ∧ l ≠ [] := by
  unfold vendorStage3 at h
  obtain ⟨a, ha, hf⟩ := List.exists_of_findSome?_eq_some h
  have hmem : a ∈ ((pySplitlines text).map pstrip).filter (fun x => x ≠ []) :=
    List.mem_of_mem_take ha
  obtain ⟨hmap, hne⟩ := List.mem_filter.mp hmem
  obtain ⟨z, _, hz⟩ := List.mem_map.mp hmap
  obtain rfl : a = l := by
    by_cases h1 : a.length < 4 ∨ badWords.any (fun b => occursIn b (pyLower a)) = true
    · rw [if_pos h1] at hf
      exact absurd hf (by simp)
    · rw [if_neg h1] at hf
      by_cases h2 : 6 ≤ (a.filter pyIsAlpha).length ∧
          (a.filter isAsciiDigit).length ≤ 2 ∧ a.length ≤ 60
      · rw [if_pos h2] at hf
        exact Option.some.inj hf
      · rw [if_neg h2] at hf
        exact absurd hf (by simp)
  exact ⟨⟨z, hz.symm⟩, by simpa using hne⟩

theorem head_not_space_of_pstrip {z l : List Char} (hl : l = pstrip z) :
    ∀ hd, l.head? = some hd → pyIsSpace hd = false := by
  intro hd h
  rw [hl] at h
  exact pstrip_head_false hd h

theorem idem_side_of_head {x : List Char}
    (h : ∀ hd, x.head? = some hd → pyIsSpace hd = false) :
    x = [] ∨ pstrip x ≠ [] := by
  cases hx : x with
  | nil => exact Or.inl rfl
  | cons c t =>
    right
    rw [← hx]
    exact pstrip_ne_nil_of_head (by rw [hx]; rfl) (h c (by rw [hx]; rfl))

/-! ## The claims -/

/-- C1: for the document text "Facture\nFournisseur: OVHcloud\nTotal TTC:
1 200,00 €\n", the pipeline yields vendor "OVHcloud", currency EUR, total
1200.00 and savings 180.00. -/
theorem C1_end_to_end_pipeline :
    preview_core "Facture\nFournisseur: OVHcloud\nTotal TTC: 1 200,00 \u20AC\n".toList =
      ("OVHcloud".toList, "EUR".toList, 1200, 180) := by
  have h1 : detect_vendor
      "Facture\nFournisseur: OVHcloud\nTotal TTC: 1 200,00 \u20AC\n".toList =
      "OVHcloud".toList := by decide
  have h2 : normalize_vendor "OVHcloud".toList = "OVHcloud".toList := by decide
  have h3 : detect_currency
      "Facture\nFournisseur: OVHcloud\nTotal TTC: 1 200,00 \u20AC\n".toList =
      "EUR".toList := by decide
  have h4 : extract_total_amount
      "Facture\nFournisseur: OVHcloud\nTotal TTC: 1 200,00 \u20AC\n".toList =
      1200 := by decide
  have h5 : savings 1200 = 180 := by
    simp only [savings, round2, rhe]
    norm_num
  simp only [preview_core, h1, h2, h3, h4, h5]

/-- C2: the savings estimate follows the tiered rule: rate 10 percent below
1000 and 15 percent otherwise, capped at 2500, rounded to two decimals, and
0.0 unconditionally for a non-positive total; with the four spec values. -/
theorem C2_savings_rule :
    (∀ total : ℚ, savings total =
      if total ≤ 0 then 0
      else round2 (min (total * (if total < 1000 then 1 / 10 else 3 / 20)) 2500)) ∧
    savings 500 = 50 ∧ savings 2000 = 300 ∧ savings 20000 = 2500 ∧ savings 0 = 0 := by
  refine ⟨fun total => ?_, ?_, ?_, ?_, ?_⟩
  · unfold savings
    rcases lt_or_le 0 total with h | h
    · rw [if_pos h, if_neg (not_le.mpr h)]
    · rw [if_neg (not_lt.mpr h), if_pos h]
  · simp only [savings, round2, rhe]; norm_num
  · simp only [savings, round2, rhe]; norm_num
  · simp only [savings, round2, rhe]; norm_num
  · simp only [savings, round2, rhe]; norm_num

/-- C3 counterexample: the text "price: 42 eur" has no currency symbol, its
lower-cased form contains " eur", yet `detect_currency` returns "UNKNOWN",
not "EUR" as the claim asserts. -/
theorem C3_counterexample :
    occursIn " eur".toList (pyLower "price: 42 eur".toList) = true ∧
    occursIn ['\u20AC'] "price: 42 eur".toList = false ∧
    occursIn ['$'] "price: 42 eur".toList = false ∧
    occursIn ['\u00A3'] "price: 42 eur".toList = false ∧
    detect_currency "price: 42 eur".toList ≠ "EUR".toList := by
  decide

/-- C3 amended: `detect_currency` consults only the three literal symbols;
on any text containing none of €, $, £ it returns "UNKNOWN" regardless of
currency keywords. -/
theorem C3_amended_symbols_only (t : List Char)
    (h1 : occursIn ['\u20AC'] t = false) (h2 : occursIn ['$'] t = false)
    (h3 : occursIn ['\u00A3'] t = false) :
    detect_currency t = "UNKNOWN".toList := by
  simp only [detect_currency, h1, h2, h3]
  norm_num

theorem C3_amended_witness :
    detect_currency "price: 42 eur".toList = "UNKNOWN".toList :=
  C3_amended_symbols_only "price: 42 eur".toList (by decide) (by decide) (by decide)

/-- C8 counterexample: `parse_number` itself does not remove an interior
non-breaking space; on "1&nbsp;234,56" it returns the failure sentinel 0.0
rather than the 1234.56 produced for the regular-space form. -/
theorem C8_counterexample :
    parse_number "1\u00A0234,56".toList = 0 ∧
    parse_number "1\u00A0234,56".toList ≠ parse_number "1 234,56".toList := by
  decide

/-- C8 amended: `parse_number` removes only regular spaces (U+0020), so the
non-breaking-space grouped form parses to 0.0; the replacement of U+00A0 by
a space is done by `extract_total_amount` before parsing, so at the
extractor level the non-breaking-space form yields 1234.56, the same value
as the regular-space form. -/
theorem C8_amended_nbsp_handled_by_extractor :
    parse_number "1 234,56".toList = 1234.56 ∧
    parse_number "1\u00A0234,56".toList = 0 ∧
    extract_total_amount "Total TTC: 1\u00A0234,56".toList = 1234.56 ∧
    extract_total_amount "Total TTC: 1\u00A0234,56".toList =
      extract_total_amount "Total TTC: 1 234,56".toList := by
  have h1 : parse_number "1 234,56".toList = mkRat 123456 100 := by decide
  have h2 : extract_total_amount "Total TTC: 1\u00A0234,56".toList =
      mkRat 123456 100 := by decide
  have h3 : mkRat 123456 100 = 1234.56 := by norm_num [mkRat, Rat.normalize]
  refine ⟨h1.trans h3, by decide, h2.trans h3, by decide⟩

/-- C9 counterexample: the total 1/1000 is strictly positive yet its savings
estimate is 0.0 (the two-decimal rounding flushes it), so "estimate is 0.0
iff total is 0.0" fails. -/
theorem C9_counterexample :
    (0 : ℚ) < 1 / 1000 ∧ savings (1 / 1000) = 0 := by
  constructor
  · norm_num
  · simp only [savings, round2, rhe]
    norm_num

/-- C9 amended: for non-negative totals the savings estimate is
non-negative, monotonically non-decreasing up to the cap, and 0.0 at total
0.0; but it is also 0.0 for some strictly positive totals (e.g. 1/1000), so
the "0.0 iff total = 0.0" direction fails and only the weaker shape holds. -/
theorem C9_amended_savings_shape :
    savings 0 = 0 ∧
    (∀ total : ℚ, 0 ≤ total → 0 ≤ savings total) ∧
    (∀ a b : ℚ, 0 ≤ a → a ≤ b → savings a ≤ savings b) ∧
    savings (1 / 1000) = 0 := by
  refine ⟨?_, fun total _ => savings_nonneg total, fun a b _ hab => savings_mono hab, ?_⟩
  · simp only [savings, round2, rhe]; norm_num
  · simp only [savings, round2, rhe]; norm_num

theorem C9_amended_witness : 0 ≤ savings 5 ∧ savings 1 ≤ savings 2 :=
  ⟨C9_amended_savings_shape.2.1 5 (by norm_num),
   C9_amended_savings_shape.2.2.1 1 2 (by norm_num) (by norm_num)⟩

/-- C4: parse_number treats the later of the two separators as the decimal
separator and strips the earlier one; a single separator is the decimal
separator (commas become dots); with the five spec example values. -/
theorem C4_parse_number_separator_rule :
    (∀ a b c : List Char,
      (∀ x ∈ a, isAsciiDigit x = true) → (∀ x ∈ b, isAsciiDigit x = true) →
      (∀ x ∈ c, isAsciiDigit x = true) → a ≠ [] →
      parse_number (a ++ '.' :: b ++ ',' :: c) = decVal (a ++ b) c ∧
      parse_number (a ++ ',' :: b ++ '.' :: c) = decVal (a ++ b) c ∧
      parse_number (a ++ ',' :: c) = decVal a c ∧
      parse_number (a ++ '.' :: c) = decVal a c ∧
      parse_number a = (natDigits a : ℚ)) ∧
    parse_number "1.234,56".toList = 1234.56 ∧
    parse_number "1,234.56".toList = 1234.56 ∧
    parse_number "1234,56".toList = 1234.56 ∧
    parse_number "900".toList = 900 ∧
    parse_number [] = 0 ∧
    parse_number "garbage".toList = 0 := by
  refine ⟨fun a b c ha hb hc hna =>
    ⟨parse_number_dot_comma a b c ha hb hc hna,
     parse_number_comma_dot a b c ha hb hc hna,
     parse_number_comma_only a c ha hc hna,
     parse_number_dot_only a c ha hc hna,
     parse_number_digits a ha hna⟩, ?_, ?_, ?_, by decide, by decide, by decide⟩
  · exact (by decide : parse_number "1.234,56".toList = mkRat 123456 100).trans
      (by norm_num [mkRat, Rat.normalize])
  · exact (by decide : parse_number "1,234.56".toList = mkRat 123456 100).trans
      (by norm_num [mkRat, Rat.normalize])
  · exact (by decide : parse_number "1234,56".toList = mkRat 123456 100).trans
      (by norm_num [mkRat, Rat.normalize])

theorem C4_separator_witness :
    parse_number ("12".toList ++ '.' :: "34".toList ++ ',' :: "56".toList) =
      decVal ("12".toList ++ "34".toList) "56".toList :=
  (C4_parse_number_separator_rule.1 "12".toList "34".toList "56".toList
    (by decide) (by decide) (by decide) (by decide)).1

/-- C5: the Stage-1 keyword scan of `extract_total_amount` is
first-match-wins over the preprocessed lines in document order: if a line
qualifies (keyword present and its first grouped-decimal number parses to a
strictly positive value) and every earlier line does not, that line
determines the result regardless of all later lines. -/
theorem C5_first_match_wins (t : List Char) (pre : List (List Char))
    (l : List Char) (post : List (List Char)) (v : ℚ)
    (hsplit : procLines t = pre ++ l :: post)
    (hpre : ∀ x ∈ pre, lineVal x = none)
    (hl : lineVal l = some v) :
    extract_total_amount t = v := by
  have hfind : (procLines t).findSome? lineVal = some v := by
    rw [hsplit, findSome?_append_of_none lineVal pre (l :: post) hpre,
      List.findSome?_cons, hl]
  unfold extract_total_amount
  rw [hfind]

theorem C5_first_match_wins_witness :
    lineVal "Total: 100".toList = some 100 ∧
    lineVal "Grand total: 250".toList = some 250 ∧
    extract_total_amount "Total: 100\nGrand total: 250".toList = 100 :=
  ⟨by decide, by decide,
   C5_first_match_wins "Total: 100\nGrand total: 250".toList []
     "Total: 100".toList ["Grand total: 250".toList] 100 (by decide)
     (by intro x hx; cases hx) (by decide)⟩

/-- C6 counterexample: on the one-space string, `normalize_vendor` returns
the empty string (the input is truthy, then stripped to empty), while
normalizing the empty string returns "UNKNOWN"; so idempotence fails. -/
theorem C6_counterexample :
    normalize_vendor (normalize_vendor [' ']) ≠ normalize_vendor [' '] := by
  decide

/-- C6 amended: `normalize_vendor` is idempotent on every string that is
empty or not whitespace-only; a nonempty all-whitespace string maps to ""
and then to "UNKNOWN", so idempotence fails exactly there. -/
theorem C6_amended_idempotent (x : List Char) (h : x = [] ∨ pstrip x ≠ []) :
    normalize_vendor (normalize_vendor x) = normalize_vendor x :=
  normalize_vendor_idem x h

theorem C6_amended_witness :
    normalize_vendor (normalize_vendor "Acme  Corp".toList) =
      normalize_vendor "Acme  Corp".toList :=
  C6_amended_idempotent "Acme  Corp".toList (Or.inr (by decide))

/-- C10: every value `detect_vendor` can return (a canonical brand name,
an already-normalized Stage 2/3 result, or the sentinel) is a fixed point
of `normalize_vendor`, so the extra normalization pass in `preview` never
changes the result. -/
theorem C10_detect_vendor_normalized (t : List Char) :
    normalize_vendor (detect_vendor t) = detect_vendor t := by
  unfold detect_vendor
  dsimp only
  cases h1 : vendorStage1 (pyLower (pstrip t)) with
  | some name =>
    obtain ⟨kn, hmem, hf⟩ := List.exists_of_findSome?_eq_some h1
    have hname : name = kn.2 := by
      by_cases ho : occursIn kn.1 (pyLower (pstrip t)) = true
      · rw [if_pos ho] at hf
        exact (Option.some.inj hf).symm
      · rw [if_neg ho] at hf
        exact absurd hf (by simp)
    have hall : ∀ kn ∈ brands, normalize_vendor kn.2 = kn.2 := by decide
    rw [hname]
    exact hall kn hmem
  | none =>
    cases h2 : vendorStage2 t with
    | some cand =>
      obtain ⟨⟨z, hz⟩, hlen⟩ := vendorStage2_shape h2
      exact normalize_vendor_idem (pyTitle cand)
        (idem_side_of_head (pyTitle_head_not_space (head_not_space_of_pstrip hz)))
    | none =>
      cases h3 : vendorStage3 (pstrip t) with
      | some l =>
        obtain ⟨⟨z, hz⟩, hne⟩ := vendorStage3_shape h3
        exact normalize_vendor_idem l (idem_side_of_head (head_not_space_of_pstrip hz))
      | none => decide

/-- C7: the four heuristics are total functions of their input (they are
plain Lean functions here, modelling that the Python never raises), and
when no heuristic matches each returns its sentinel: "UNKNOWN" for currency
and vendor, 0.0 for the amount. -/
theorem C7_sentinel_degradation :
    (∀ t : List Char, detect_currency t = "EUR".toList ∨
      detect_currency t = "USD".toList ∨ detect_currency t = "GBP".toList ∨
      detect_currency t = "UNKNOWN".toList) ∧
    (∀ t : List Char, occursIn ['\u20AC'] t = false → occursIn ['$'] t = false →
      occursIn ['\u00A3'] t = false → detect_currency t = "UNKNOWN".toList) ∧
    (∀ t : List Char, vendorStage1 (pyLower (pstrip t)) = none →
      vendorStage2 t = none → vendorStage3 (pstrip t) = none →
      detect_vendor t = "UNKNOWN".toList) ∧
    (∀ t : List Char, (procLines t).findSome? lineVal = none →
      findall2F (pyLower (nbspToSpace t)).length (pyLower (nbspToSpace t)) = [] →
      findall3F (pyLower (nbspToSpace t)).length (pyLower (nbspToSpace t)) = [] →
      extract_total_amount t = 0) := by
  refine ⟨fun t => ?_, fun t h1 h2 h3 => ?_, fun t h1 h2 h3 => ?_, fun t h1 h2 h3 => ?_⟩
  · unfold detect_currency
    split_ifs <;> simp
  · simp only [detect_currency, h1, h2, h3]
    norm_num
  · simp only [detect_vendor, h1, h2, h3]
  · simp only [extract_total_amount, stage3Val, h1, h2, h3, List.getLast?_nil]

theorem C7_sentinel_witness :
    detect_currency [] = "UNKNOWN".toList ∧ detect_vendor [] = "UNKNOWN".toList ∧
    extract_total_amount [] = 0 :=
  ⟨C7_sentinel_degradation.2.1 [] (by decide) (by decide) (by decide),
   C7_sentinel_degradation.2.2.1 [] (by decide) (by decide) (by decide),
   C7_sentinel_degradation.2.2.2 [] (by decide) (by decide) (by decide)⟩

end SpendGuard

